import Mathlib

/-!
# Verification of the PBO archive library

A shallow embedding of the PBO ("Packed Bank of Files") archive codec:
the binary parser with its offset-resolution policy, the pack writer with
its LZSS compression decision, the signature hash-set computation, the
SHA-1 trailer, the extraction path-safety normalizer, and the
transactional editor commit protocol.

Bytes are modelled as `Nat` values (< 256 on real data); byte strings and
file contents as `List Nat`.  The external LZSS codec and the path-rule
glob matcher are out of scope for the library and are modelled as
parameters (`Codec`, a `List Nat → Bool` matcher).  SHA-1 is modelled as
an abstract digest parameter, since every claim here concerns which bytes
are fed to it, not the compression function itself.
-/

deriving instance DecidableEq for Except

namespace PBO

/-- Errors of the library, by discriminator kind.  `invalidEntryOffset`
keeps the wrapped detail message so that the strict-mode stored-offset
failure is distinguishable from the final bounds-validation failure. -/
inductive Err where
  | invalidHeader
  | eofError
  | fileNameTooLong
  | invalidEntryOffset (detail : String)
  | sizeOverflow
  | invalidEntryPath
  | duplicateEntryPath
  | emptyInputs
  | entryNotFound
  | invalidExtractPath
  | noProgress
  | nilReader
  | shortRead
  | decompressFailed
  | unsupportedSignVersion
  | unsupportedGameTypeV3
  | osError
  | compositeError
  deriving DecidableEq, Repr

/-- Format limits: fixed header size, SHA-1 size, max name length and the
4 GiB payload bound (`maxPBOData = 1 <<< 32`, `u32Max = 2^32 - 1`). -/
def headerSizeC : Nat := 21

def shaSizeC : Nat := 20

def maxNameLenC : Nat := 512

def u32Max : Nat := 4294967295

def maxPBOData : Nat := 4294967296

/-- Mime tag "Vers" (0x56657273), first fixed header marker. -/
def mimeHeaderC : Nat := 0x56657273

/-- Mime tag "Cprs" (0x43707273), LZSS-compressed payload. -/
def mimeCompressC : Nat := 0x43707273

/-- Mime 0, raw payload or index terminator. -/
def mimeNilC : Nat := 0

/-- Default packer tuning values (write buffer, compression size bounds). -/
def defaultWriteBuffer : Nat := 16777216

def defaultMinCompressSize : Nat := 512

def defaultMaxCompressSize : Nat := 16777216

/-! ## Byte-string helpers -/

/-- ASCII whitespace bytes trimmed by `strings.TrimSpace` on ASCII data. -/
def isSpaceByte (b : Nat) : Bool :=
  b == 32 || b == 9 || b == 10 || b == 11 || b == 12 || b == 13

/-- Trim leading and trailing ASCII whitespace bytes. -/
def trimSpace (l : List Nat) : List Nat :=
  ((l.dropWhile isSpaceByte).reverse.dropWhile isSpaceByte).reverse

/-- Replace every occurrence of byte `a` with byte `b`. -/
def replaceByte (a b : Nat) (l : List Nat) : List Nat :=
  l.map fun c => if c == a then b else c

/-- ASCII lower-casing of one byte: A-Z map to a-z, all others unchanged. -/
def toLowerByte (b : Nat) : Nat :=
  if 65 ≤ b ∧ b ≤ 90 then b + 32 else b

/-- `asciiLower`: ASCII-only lower-casing of a byte string; non-ASCII bytes
are untouched. -/
def lowerBytes (l : List Nat) : List Nat :=
  l.map toLowerByte

/-- Byte-wise lexicographic strict order, the order of Go `string <`. -/
def bytesLt : List Nat → List Nat → Bool
  | [], [] => false
  | [], _ :: _ => true
  | _ :: _, [] => false
  | a :: as, b :: bs => if a < b then true else if b < a then false else bytesLt as bs

/-- Split a byte string on `/` (byte 47) into its segments. -/
def splitSlash (l : List Nat) : List (List Nat) :=
  match l with
  | [] => [[]]
  | b :: rest =>
      let tail := splitSlash rest
      if b == 47 then [] :: tail
      else
        match tail with
        | [] => [[b]]
        | s :: ss => (b :: s) :: ss

/-- Join segments with `/` separators. -/
def joinSlash (segs : List (List Nat)) : List Nat :=
  match segs with
  | [] => []
  | [s] => s
  | s :: rest => s ++ 47 :: joinSlash rest

/-- The stack pass of Go `path.Clean` on a rooted path: empty and `.`
segments are dropped, `..` pops the previous segment (and is dropped at
the root). -/
def cleanSegs (segs : List (List Nat)) : List (List Nat) :=
  segs.foldl
    (fun acc seg =>
      if seg == ([] : List Nat) then acc
      else if seg == [46] then acc
      else if seg == [46, 46] then acc.dropLast
      else acc ++ [seg])
    []

/-! ## Path normalization (`NormalizePath` and friends) -/

/-- `normalizePathForMatching`: trim whitespace, `\` to `/`, strip one
leading `./`. -/
def normalizePathForMatching (l : List Nat) : List Nat :=
  let l := replaceByte 92 47 (trimSpace l)
  if l.take 2 == [46, 47] then l.drop 2 else l

/-- `NormalizePath`: matcher normalization, then strip a leading `/`, then
the lexical clean of `path.Clean ("/" ++ raw)` with the root marker
stripped again (expressed directly as the rooted segment-stack pass). -/
def normPath (l : List Nat) : List Nat :=
  let l := normalizePathForMatching l
  let l := if l.take 1 == [47] then l.drop 1 else l
  joinSlash (cleanSegs (splitSlash l))

/-- `normalizeArchiveEntryPath`: canonical archive form with `\`
separators; the empty result is rejected with INVALID_ENTRY_PATH. -/
def normalizeArchiveEntryPath (l : List Nat) : Except Err (List Nat) :=
  let n := normPath l
  if n == ([] : List Nat) then .error .invalidEntryPath
  else .ok (replaceByte 47 92 n)

/-- `NormalizePrefixHeader`: normalized path with `\` separators, empty
stays empty. -/
def normPrefixHeader (l : List Nat) : List Nat :=
  replaceByte 47 92 (normPath l)

/-! ## Entry model -/

/-- One parsed PBO index entry (`EntryInfo`). -/
structure EntryInfo where
  path : List Nat
  offset : Nat
  dataSize : Nat
  originalSize : Nat
  timeStamp : Nat
  mime : Nat
  deriving DecidableEq, Repr, Inhabited

/-- `EntryInfo.IsCompressed`: Cprs mime, or a nonzero original size larger
than the stored size. -/
def EntryInfo.isCompressedB (e : EntryInfo) : Bool :=
  e.mime == mimeCompressC || (e.originalSize != 0 && e.dataSize < e.originalSize)

/-! ## Offset resolution (`resolveEntryOffsets` and friends) -/

/-- Reader offset policy modes. -/
inductive OffsetMode where
  | sequential
  | storedCompat
  | storedStrict
  deriving DecidableEq, Repr

/-- `assignSequentialOffsets`: derive offsets from `dataStart` and the
previous sizes; every running sum must fit in u32. -/
def assignSequentialOffsets (entries : List EntryInfo) (dataStart : Nat) :
    Except Err (List EntryInfo) :=
  if dataStart > u32Max then .error .sizeOverflow
  else go entries dataStart
where
  /-- Assign `current` to the head entry and advance by its data size. -/
  go : List EntryInfo → Nat → Except Err (List EntryInfo)
    | [], _ => .ok []
    | e :: rest, current =>
        if e.dataSize > u32Max - current then .error .sizeOverflow
        else do
          let tail ← go rest (current + e.dataSize)
          pure ({ e with offset := current } :: tail)

/-- One pass of `assignStoredOffsets` with in-place mutation semantics:
entries resolved before a failure keep their resolved offsets; the
returned Bool reports success.  `prev` is the previous resolved offset
(−1 initially), `adjust` is `dataStart` for relative mode and 0 for
absolute mode. -/
def assignStoredGo (dataStart totalSize : Nat) (adjust : Nat) :
    List EntryInfo → Int → (List EntryInfo × Bool)
  | [], _ => ([], true)
  | e :: rest, prev =>
      let resolved := e.offset + adjust
      if resolved < dataStart then (e :: rest, false)
      else if resolved > u32Max then (e :: rest, false)
      else if (resolved : Int) < prev then (e :: rest, false)
      else if resolved + e.dataSize > totalSize then (e :: rest, false)
      else
        let (tail, ok) := assignStoredGo dataStart totalSize adjust rest (resolved : Int)
        ({ e with offset := resolved } :: tail, ok)

/-- `assignStoredOffsets`: apply stored offsets as absolute
(`adjust = 0`) or relative-to-dataStart values. -/
def assignStoredOffsets (entries : List EntryInfo) (dataStart totalSize : Nat)
    (absolute : Bool) : List EntryInfo × Bool :=
  assignStoredGo dataStart totalSize (if absolute then 0 else dataStart) entries (-1)

/-- Outcome of `tryAssignStoredOffsets`: stored offsets used, not
meaningful (all zero / no entries), or malformed under both
interpretations (carrying the array state the attempts left behind). -/
inductive TryStored where
  | used (entries : List EntryInfo)
  | unused
  | malformed (entries : List EntryInfo)
  deriving DecidableEq, Repr

/-- The first-offset heuristic: `true` means try the absolute
interpretation first (first stored offset nonzero and not below
`dataStart`), `false` means try relative first. -/
def firstOffsetHeuristicAbsolute (entries : List EntryInfo) (dataStart : Nat) :
    Bool :=
  let first := (entries.headD default).offset
  !(first == 0 || first < dataStart)

/-- `tryAssignStoredOffsets`: when some stored offset is nonzero, try the
interpretation picked by the first-offset heuristic, then the other one
on the array state the first attempt left behind. -/
def tryAssignStoredOffsets (entries : List EntryInfo) (dataStart totalSize : Nat) :
    TryStored :=
  if entries.isEmpty then .unused
  else if entries.all (fun e => e.offset == 0) then .unused
  else
    match assignStoredOffsets entries dataStart totalSize
      (firstOffsetHeuristicAbsolute entries dataStart) with
    | (es1, ok1) =>
        if ok1 then .used es1
        else
          match assignStoredOffsets es1 dataStart totalSize
            (!firstOffsetHeuristicAbsolute entries dataStart) with
          | (es2, ok2) => if ok2 then .used es2 else .malformed es2

/-- `validateResolvedOffsets`: every resolved `[offset, offset+dataSize)`
must lie within `[dataStart, totalSize]`. -/
def validateResolvedOffsets (entries : List EntryInfo) (dataStart totalSize : Nat) :
    Except Err Unit :=
  match entries with
  | [] => .ok ()
  | e :: rest =>
      if e.offset < dataStart then
        .error (.invalidEntryOffset "offset before data start")
      else if e.offset + e.dataSize > totalSize then
        .error (.invalidEntryOffset "payload out of file bounds")
      else validateResolvedOffsets rest dataStart totalSize

/-- The per-mode selection branch of `resolveEntryOffsets`. -/
def resolveByMode (entries : List EntryInfo) (dataStart totalSize : Nat) :
    OffsetMode → Except Err (List EntryInfo)
  | .sequential => assignSequentialOffsets entries dataStart
  | .storedCompat =>
      match tryAssignStoredOffsets entries dataStart totalSize with
      | .used es => .ok es
      | .unused => assignSequentialOffsets entries dataStart
      | .malformed es => assignSequentialOffsets es dataStart
  | .storedStrict =>
      match tryAssignStoredOffsets entries dataStart totalSize with
      | .used es => .ok es
      | .unused => assignSequentialOffsets entries dataStart
      | .malformed _ =>
          .error (.invalidEntryOffset "stored offsets are malformed")

/-- `resolveEntryOffsets`: apply the selected offset policy, then the
final validation pass common to all modes. -/
def resolveEntryOffsets (entries : List EntryInfo) (dataStart totalSize : Nat)
    (mode : OffsetMode) : Except Err (List EntryInfo) := do
  let resolved ← resolveByMode entries dataStart totalSize mode
  let _ ← validateResolvedOffsets resolved dataStart totalSize
  pure resolved

/-! ## Pack options and compression policy -/

/-- The compiled path-rule matcher (`*compressMatcher`): the external
`pathrules` collaborator is modelled by its match function; `none` is the
nil matcher produced when the normalized rule list is empty. -/
def CompressMatcher : Type := Option (List Nat → Bool)

/-- `compressMatcher.Match`: nil matcher matches nothing; otherwise match
the slash-normalized path, rejecting an empty normalization. -/
def CompressMatcher.matchPath (m : CompressMatcher) (path : List Nat) : Bool :=
  match m with
  | none => false
  | some f =>
      let candidate := normPath path
      if candidate == ([] : List Nat) then false else f candidate

/-- `PackOptions`: header pairs, the compression rule matcher (the
compiled form of the `Compress` rule list), writer buffer size and the
compression size bounds.  The external matcher-options defaulting is out
of scope. -/
structure PackOptions where
  hdrs : List (List Nat × List Nat) := []
  compress : CompressMatcher := none
  writerBufferSize : Nat := 0
  minCompressSize : Nat := 0
  maxCompressSize : Nat := 0

/-- `PackOptions.applyDefaults`: fill zero-valued options; note the max
bound is also replaced when it does not exceed the (already defaulted)
min bound. -/
def PackOptions.applyDefaults (o : PackOptions) : PackOptions :=
  let wb := if o.writerBufferSize < 4096 then defaultWriteBuffer else o.writerBufferSize
  let minC := if o.minCompressSize == 0 then defaultMinCompressSize else o.minCompressSize
  let maxC :=
    if o.maxCompressSize == 0 || o.maxCompressSize ≤ minC then defaultMaxCompressSize
    else o.maxCompressSize
  { o with writerBufferSize := wb, minCompressSize := minC, maxCompressSize := maxC }

/-- `shouldCompressBySize`: payload size within the compression bounds. -/
def shouldCompressBySize (o : PackOptions) (size : Nat) : Bool :=
  !(size > o.maxCompressSize || size < o.minCompressSize)

/-- `shouldCompress`: size bounds, then a non-nil matcher match. -/
def shouldCompress (o : PackOptions) (m : CompressMatcher) (path : List Nat)
    (size : Nat) : Bool :=
  if !shouldCompressBySize o size then false
  else match m with
    | none => false
    | some _ => m.matchPath path

/-- `shouldSkipCompressBySizeHint`: a known positive size hint outside
the bounds guarantees no compression attempt. -/
def shouldSkipCompressBySizeHint (o : PackOptions) (sizeHint : Int) : Bool :=
  if sizeHint ≤ 0 then false
  else sizeHint < (o.minCompressSize : Int) || sizeHint > (o.maxCompressSize : Int)

/-! ## Inputs, codec, and the per-entry payload writer -/

/-- One pack input (`Input`): destination path, the bytes its `Open`
stream yields, the size hint (0 or negative when unknown) and the
modification time in Unix seconds. -/
structure Input where
  path : List Nat
  data : List Nat
  sizeHint : Int := 0
  mtime : Int := 0
  deriving DecidableEq, Repr

/-- The external LZSS codec interface: compress bytes; decompress a
bounded stream to a known output length (`none` on failure). -/
structure Codec where
  compress : List Nat → List Nat
  decompress : List Nat → Nat → Option (List Nat)

/-- `timeToUint32`: Unix seconds clamped to `[0, 2^32 − 1]`. -/
def timeToUint32 (t : Int) : Nat :=
  if t < 0 then 0 else if t > (u32Max : Int) then u32Max else t.toNat

/-- `shouldUseCompressionForInput`: nil matcher, skip-by-hint and
over-u32 hints force the raw path; a known positive hint consults the
full policy, an unknown hint only the matcher. -/
def shouldUseCompressionForInput (o : PackOptions) (m : CompressMatcher)
    (inp : Input) : Bool :=
  match m with
  | none => false
  | some _ =>
      if shouldSkipCompressBySizeHint o inp.sizeHint then false
      else if inp.sizeHint > (u32Max : Int) then false
      else if inp.sizeHint > 0 then shouldCompress o m inp.path inp.sizeHint.toNat
      else m.matchPath inp.path

/-- `shouldUseInMemoryCompressPath`: known positive hint no larger than
the remaining entry budget and the max compression size. -/
def shouldUseInMemoryCompressPath (o : PackOptions) (sizeHint : Int)
    (maxEntrySize : Nat) : Bool :=
  if sizeHint ≤ 0 then false
  else if sizeHint > (maxEntrySize : Int) then false
  else if sizeHint > (o.maxCompressSize : Int) then false
  else true

/-- `copyPayloadBounded` / `readPayloadBounded` on a pure source: the
source yields exactly `data`; a source longer than the limit is detected
by the probe read and fails SIZE_OVERFLOW. -/
def copyBounded (data : List Nat) (limit : Nat) : Except Err (List Nat) :=
  if data.length > limit then .error .sizeOverflow else .ok data

/-- `checkedDataSize`: entry size must fit u32 and the remaining running
offset budget. -/
def checkedDataSize (size : Nat) (currentOffset : Nat) : Except Err Nat :=
  if size > u32Max then .error .sizeOverflow
  else if size > u32Max - currentOffset then .error .sizeOverflow
  else .ok size

/-- Concrete entry values produced during one payload write
(`writtenEntry`). -/
structure Written where
  path : List Nat
  dataSize : Nat
  originalSize : Nat
  mime : Nat
  timestamp : Nat
  candidate : Bool
  deriving DecidableEq, Repr

/-- `writeUncompressedPayload`: stream raw with the strict remaining
budget, record MimeNil metadata. -/
def writeUncompressedPayload (inp : Input) (currentOffset : Nat) :
    Except Err (Written × List Nat) := do
  let maxEntrySize := u32Max - currentOffset
  let streamed ← copyBounded inp.data maxEntrySize
  let ds ← checkedDataSize streamed.length currentOffset
  pure ({ path := inp.path, dataSize := ds, originalSize := 0, mime := mimeNilC,
          timestamp := timeToUint32 inp.mtime, candidate := false }, streamed)

/-- `writeCompressedCandidatePayloadInMemory`: buffer the payload, keep
the LZSS result only when strictly smaller than raw. -/
def writeCompressedCandidatePayloadInMemory (codec : Codec) (o : PackOptions)
    (inp : Input) (currentOffset : Nat) (maxEntrySize : Nat) :
    Except Err (Written × List Nat) := do
  let raw ← copyBounded inp.data maxEntrySize
  let origSz ← checkedDataSize raw.length currentOffset
  let base : Written :=
    { path := inp.path, dataSize := origSz, originalSize := 0, mime := mimeNilC,
      timestamp := timeToUint32 inp.mtime, candidate := false }
  if !shouldCompressBySize o origSz then pure (base, raw)
  else
    let compressed := codec.compress raw
    if compressed.length ≥ raw.length then pure (base, raw)
    else do
      let ds ← checkedDataSize compressed.length currentOffset
      let rec' : Written :=
        { base with dataSize := ds, originalSize := origSz, mime := mimeCompressC }
      pure (rec', compressed)

/-- `writeCompressedCandidatePayload`: unknown-size and out-of-budget
candidates are streamed raw; the rest take the in-memory path. -/
def writeCompressedCandidatePayload (codec : Codec) (o : PackOptions)
    (inp : Input) (currentOffset : Nat) : Except Err (Written × List Nat) :=
  let maxEntrySize := u32Max - currentOffset
  if !shouldUseInMemoryCompressPath o inp.sizeHint maxEntrySize then
    writeUncompressedPayload inp currentOffset
  else
    writeCompressedCandidatePayloadInMemory codec o inp currentOffset maxEntrySize

/-- `writeInputPayload`: dispatch on the precomputed compression plan. -/
def writeInputPayload (codec : Codec) (o : PackOptions) (inp : Input)
    (useCompression : Bool) (currentOffset : Nat) :
    Except Err (Written × List Nat) :=
  if !useCompression then writeUncompressedPayload inp currentOffset
  else writeCompressedCandidatePayload codec o inp currentOffset

/-- `writeRewriteInputPayload`: decide the candidate path, write the
payload, and record the candidate flag. -/
def writeRewriteInputPayload (codec : Codec) (o : PackOptions)
    (m : CompressMatcher) (inp : Input) (currentOffset : Nat) :
    Except Err (Written × List Nat) := do
  let useCompression := shouldUseCompressionForInput o m inp
  let (record, payload) ← writeInputPayload codec o inp useCompression currentOffset
  pure ({ record with candidate := useCompression }, payload)

/-! ## Helper lemmas for the payload writer -/

theorem copyBounded_of_le {data : List Nat} {limit : Nat}
    (h : data.length ≤ limit) : copyBounded data limit = .ok data := by
  simp [copyBounded, Nat.not_lt.mpr h]

theorem copyBounded_of_gt {data : List Nat} {limit : Nat}
    (h : limit < data.length) : copyBounded data limit = .error .sizeOverflow := by
  simp [copyBounded, h]

theorem checkedDataSize_of_le {size cur : Nat} (h1 : size ≤ u32Max)
    (h2 : size ≤ u32Max - cur) : checkedDataSize size cur = .ok size := by
  simp [checkedDataSize, Nat.not_lt.mpr h1, Nat.not_lt.mpr h2]

theorem writeUncompressedPayload_of_le {inp : Input} {cur : Nat}
    (h : inp.data.length ≤ u32Max - cur) :
    writeUncompressedPayload inp cur =
      .ok ({ path := inp.path, dataSize := inp.data.length, originalSize := 0,
             mime := mimeNilC, timestamp := timeToUint32 inp.mtime,
             candidate := false }, inp.data) := by
  have hm : inp.data.length ≤ u32Max := le_trans h (Nat.sub_le _ _)
  simp [writeUncompressedPayload, copyBounded_of_le h, checkedDataSize_of_le hm h,
    Except.bind, Except.map, bind, Functor.map, pure, Except.pure]

theorem writeInputPayload_false (codec : Codec) (o : PackOptions) (inp : Input)
    (cur : Nat) :
    writeInputPayload codec o inp false cur = writeUncompressedPayload inp cur := by
  simp [writeInputPayload]

theorem writeRewriteInputPayload_eq (codec : Codec) (o : PackOptions)
    (m : CompressMatcher) (inp : Input) (cur : Nat) :
    writeRewriteInputPayload codec o m inp cur =
      Except.map
        (fun rp => ({ rp.1 with candidate := shouldUseCompressionForInput o m inp },
          rp.2))
        (writeInputPayload codec o inp (shouldUseCompressionForInput o m inp) cur) := by
  unfold writeRewriteInputPayload
  cases h : writeInputPayload codec o inp (shouldUseCompressionForInput o m inp) cur with
  | ok rp => simp [h, Except.map, Except.bind, bind, pure, Except.pure]
  | error e => simp [h, Except.map, Except.bind, bind, pure, Except.pure]

theorem shouldUseCompressionForInput_char (o : PackOptions) (f : List Nat → Bool)
    (inp : Input) (hmax : o.maxCompressSize ≤ u32Max)
    (hhint : inp.sizeHint = (inp.data.length : Int)) :
    shouldUseCompressionForInput o (some f) inp =
      if inp.data.length = 0 then CompressMatcher.matchPath (some f) inp.path
      else shouldCompressBySize o inp.data.length
            && CompressMatcher.matchPath (some f) inp.path := by
  simp only [shouldUseCompressionForInput]
  by_cases h0 : inp.data.length = 0
  · have hs : shouldSkipCompressBySizeHint o inp.sizeHint = false := by
      simp only [shouldSkipCompressBySizeHint, hhint, h0]
      norm_num
    have h1 : ¬ inp.sizeHint > (u32Max : Int) := by rw [hhint, h0]; norm_num
    have h2 : ¬ inp.sizeHint > 0 := by rw [hhint, h0]; norm_num
    simp [hs, h1, h2, h0]
  · have hz : 0 < inp.data.length := Nat.pos_of_ne_zero h0
    by_cases hsz : shouldCompressBySize o inp.data.length = true
    · have hrange : o.minCompressSize ≤ inp.data.length ∧
          inp.data.length ≤ o.maxCompressSize := by
        simp only [shouldCompressBySize, Bool.not_eq_true', Bool.or_eq_false_iff,
          decide_eq_false_iff_not, Nat.not_lt] at hsz
        exact ⟨hsz.2, hsz.1⟩
      have hs : shouldSkipCompressBySizeHint o inp.sizeHint = false := by
        simp only [shouldSkipCompressBySizeHint, hhint]
        have c1 : ¬ ((inp.data.length : Int) ≤ 0) := by omega
        have c2 : ¬ ((inp.data.length : Int) < (o.minCompressSize : Int)) := by
          have := hrange.1; omega
        have c3 : ¬ ((o.maxCompressSize : Int) < (inp.data.length : Int)) := by
          have := hrange.2; omega
        simp [c1, c2, c3]
      have h1 : ¬ inp.sizeHint > (u32Max : Int) := by
        rw [hhint]; have := hrange.2; omega
      have h2 : inp.sizeHint > 0 := by rw [hhint]; omega
      have h3 : inp.sizeHint.toNat = inp.data.length := by rw [hhint]; omega
      simp [hs, h1, h2, h3, shouldCompress, hsz, h0]
    · have hout : inp.data.length < o.minCompressSize ∨
          o.maxCompressSize < inp.data.length := by
        by_contra hcon
        push_neg at hcon
        apply hsz
        simp only [shouldCompressBySize]
        have c2 : ¬ (inp.data.length > o.maxCompressSize) := by omega
        have c3 : ¬ (inp.data.length < o.minCompressSize) := by omega
        simp [c2, c3]
      have hs : shouldSkipCompressBySizeHint o inp.sizeHint = true := by
        simp only [shouldSkipCompressBySizeHint, hhint]
        have c1 : ¬ ((inp.data.length : Int) ≤ 0) := by omega
        rcases hout with h | h
        · have c2 : ((inp.data.length : Int) < (o.minCompressSize : Int)) := by omega
          simp [c1, c2]
        · have c3 : ((o.maxCompressSize : Int) < (inp.data.length : Int)) := by omega
          simp [c1, c3]
      simp only [Bool.not_eq_true] at hsz
      simp [hs, hsz, h0]

theorem writeInputPayload_true_zero (codec : Codec) (o : PackOptions) (inp : Input)
    (cur : Nat) (hhint : inp.sizeHint = (inp.data.length : Int))
    (h0 : inp.data.length = 0) :
    writeInputPayload codec o inp true cur = writeUncompressedPayload inp cur := by
  have hg : shouldUseInMemoryCompressPath o inp.sizeHint (u32Max - cur) = false := by
    simp only [shouldUseInMemoryCompressPath, hhint, h0]
    norm_num
  simp [writeInputPayload, writeCompressedCandidatePayload, hg]

theorem writeInputPayload_true_mem (codec : Codec) (o : PackOptions) (inp : Input)
    (cur : Nat) (hhint : inp.sizeHint = (inp.data.length : Int))
    (h0 : 0 < inp.data.length) (hfits : inp.data.length ≤ u32Max - cur)
    (hub : inp.data.length ≤ o.maxCompressSize) :
    writeInputPayload codec o inp true cur =
      writeCompressedCandidatePayloadInMemory codec o inp cur (u32Max - cur) := by
  have hg : shouldUseInMemoryCompressPath o inp.sizeHint (u32Max - cur) = true := by
    simp only [shouldUseInMemoryCompressPath, hhint]
    have c1 : ¬ ((inp.data.length : Int) ≤ 0) := by omega
    have c2 : ¬ ((inp.data.length : Int) > ((u32Max - cur : Nat) : Int)) := by omega
    have c3 : ¬ ((inp.data.length : Int) > (o.maxCompressSize : Int)) := by omega
    simp [c1, c2, c3]
  simp [writeInputPayload, writeCompressedCandidatePayload, hg]

theorem inMemory_raw (codec : Codec) (o : PackOptions) (inp : Input) (cur : Nat)
    (hfits : inp.data.length ≤ u32Max - cur)
    (hcase : shouldCompressBySize o inp.data.length = false ∨
      (codec.compress inp.data).length ≥ inp.data.length) :
    writeCompressedCandidatePayloadInMemory codec o inp cur (u32Max - cur) =
      .ok ({ path := inp.path, dataSize := inp.data.length, originalSize := 0,
             mime := mimeNilC, timestamp := timeToUint32 inp.mtime,
             candidate := false }, inp.data) := by
  have hm : inp.data.length ≤ u32Max := le_trans hfits (Nat.sub_le _ _)
  unfold writeCompressedCandidatePayloadInMemory
  rw [copyBounded_of_le hfits]
  simp only [Except.bind, bind]
  rw [checkedDataSize_of_le hm hfits]
  rcases hcase with h | h
  · simp [h, pure, Except.pure]
  · by_cases hsz : shouldCompressBySize o inp.data.length = true
    · simp [hsz, h, pure, Except.pure]
    · simp only [Bool.not_eq_true] at hsz
      simp [hsz, pure, Except.pure]

theorem inMemory_compressed (codec : Codec) (o : PackOptions) (inp : Input)
    (cur : Nat) (hfits : inp.data.length ≤ u32Max - cur)
    (hsz : shouldCompressBySize o inp.data.length = true)
    (hlt : (codec.compress inp.data).length < inp.data.length) :
    writeCompressedCandidatePayloadInMemory codec o inp cur (u32Max - cur) =
      .ok ({ path := inp.path, dataSize := (codec.compress inp.data).length,
             originalSize := inp.data.length, mime := mimeCompressC,
             timestamp := timeToUint32 inp.mtime, candidate := false },
        codec.compress inp.data) := by
  have hm : inp.data.length ≤ u32Max := le_trans hfits (Nat.sub_le _ _)
  have hc1 : (codec.compress inp.data).length ≤ u32Max := by omega
  have hc2 : (codec.compress inp.data).length ≤ u32Max - cur := by omega
  unfold writeCompressedCandidatePayloadInMemory
  rw [copyBounded_of_le hfits]
  simp only [Except.bind, bind]
  rw [checkedDataSize_of_le hm hfits]
  have hge : ¬ ((codec.compress inp.data).length ≥ inp.data.length) := by omega
  simp only [hsz, Bool.not_true, Bool.false_eq_true, if_false, reduceIte, hge,
    Except.bind, bind]
  rw [checkedDataSize_of_le hc1 hc2]
  simp [pure, Except.pure]

theorem mimeNil_ne_compress : mimeNilC ≠ mimeCompressC := by
  norm_num [mimeNilC, mimeCompressC]

theorem shouldCompressBySize_eq_true (o : PackOptions) (n : Nat) :
    shouldCompressBySize o n = true ↔
      o.minCompressSize ≤ n ∧ n ≤ o.maxCompressSize := by
  simp only [shouldCompressBySize, Bool.not_eq_true', Bool.or_eq_false_iff,
    decide_eq_false_iff_not, Nat.not_lt]
  omega

theorem writeInputPayload_overflow (codec : Codec) (o : PackOptions) (inp : Input)
    (u : Bool) (cur : Nat) (hhint : inp.sizeHint = (inp.data.length : Int))
    (hover : u32Max - cur < inp.data.length) :
    writeInputPayload codec o inp u cur = .error .sizeOverflow := by
  have hraw : writeUncompressedPayload inp cur = .error .sizeOverflow := by
    simp [writeUncompressedPayload, copyBounded_of_gt hover, Except.bind, bind]
  cases u with
  | false => rw [writeInputPayload_false]; exact hraw
  | true =>
      have hg : shouldUseInMemoryCompressPath o inp.sizeHint (u32Max - cur)
          = false := by
        simp only [shouldUseInMemoryCompressPath, hhint]
        by_cases hz : ((inp.data.length : Int) ≤ 0)
        · simp [hz]
        · have : ((inp.data.length : Int) > ((u32Max - cur : Nat) : Int)) := by omega
          simp [hz, this]
      simp only [writeInputPayload, Bool.not_true, Bool.false_eq_true, if_false,
        reduceIte, writeCompressedCandidatePayload, hg]
      simpa using hraw

theorem wrip_outcome (codec : Codec) (o : PackOptions) (f : List Nat → Bool)
    (inp : Input) (cur : Nat) (hmax : o.maxCompressSize ≤ u32Max)
    (hhint : inp.sizeHint = (inp.data.length : Int))
    (hfits : inp.data.length ≤ u32Max - cur) :
    writeRewriteInputPayload codec o (some f) inp cur =
      if CompressMatcher.matchPath (some f) inp.path = true ∧
          o.minCompressSize ≤ inp.data.length ∧
          inp.data.length ≤ o.maxCompressSize ∧
          (codec.compress inp.data).length < inp.data.length
      then .ok ({ path := inp.path, dataSize := (codec.compress inp.data).length,
                  originalSize := inp.data.length, mime := mimeCompressC,
                  timestamp := timeToUint32 inp.mtime,
                  candidate := if inp.data.length = 0
                    then CompressMatcher.matchPath (some f) inp.path
                    else shouldCompressBySize o inp.data.length
                          && CompressMatcher.matchPath (some f) inp.path },
            codec.compress inp.data)
      else .ok ({ path := inp.path, dataSize := inp.data.length, originalSize := 0,
                  mime := mimeNilC, timestamp := timeToUint32 inp.mtime,
                  candidate := if inp.data.length = 0
                    then CompressMatcher.matchPath (some f) inp.path
                    else shouldCompressBySize o inp.data.length
                          && CompressMatcher.matchPath (some f) inp.path },
            inp.data) := by
  rw [writeRewriteInputPayload_eq, shouldUseCompressionForInput_char o f inp hmax hhint]
  by_cases h0 : inp.data.length = 0
  · have hcond : ¬ (CompressMatcher.matchPath (some f) inp.path = true ∧
        o.minCompressSize ≤ inp.data.length ∧
        inp.data.length ≤ o.maxCompressSize ∧
        (codec.compress inp.data).length < inp.data.length) := by
      rintro ⟨-, -, -, hlt⟩; omega
    rw [if_neg hcond]
    by_cases hm : CompressMatcher.matchPath (some f) inp.path = true
    · have hif : (if inp.data.length = 0
          then CompressMatcher.matchPath (some f) inp.path
          else shouldCompressBySize o inp.data.length
                && CompressMatcher.matchPath (some f) inp.path) = true := by
        rw [if_pos h0, hm]
      rw [hif, writeInputPayload_true_zero codec o inp cur hhint h0,
        writeUncompressedPayload_of_le hfits]
      simp [Except.map]
    · have hm' : CompressMatcher.matchPath (some f) inp.path = false := by
        simpa using hm
      have hif : (if inp.data.length = 0
          then CompressMatcher.matchPath (some f) inp.path
          else shouldCompressBySize o inp.data.length
                && CompressMatcher.matchPath (some f) inp.path) = false := by
        rw [if_pos h0, hm']
      rw [hif, writeInputPayload_false, writeUncompressedPayload_of_le hfits]
      simp [Except.map]
  · by_cases hsz : shouldCompressBySize o inp.data.length = true
    · by_cases hm : CompressMatcher.matchPath (some f) inp.path = true
      · have hub : inp.data.length ≤ o.maxCompressSize :=
          ((shouldCompressBySize_eq_true o inp.data.length).mp hsz).2
        have hif : (if inp.data.length = 0
            then CompressMatcher.matchPath (some f) inp.path
            else shouldCompressBySize o inp.data.length
                  && CompressMatcher.matchPath (some f) inp.path) = true := by
          rw [if_neg h0, hm, hsz, Bool.and_self]
        rw [hif, writeInputPayload_true_mem codec o inp cur hhint
          (Nat.pos_of_ne_zero h0) hfits hub]
        by_cases hlt : (codec.compress inp.data).length < inp.data.length
        · have hcond : CompressMatcher.matchPath (some f) inp.path = true ∧
              o.minCompressSize ≤ inp.data.length ∧
              inp.data.length ≤ o.maxCompressSize ∧
              (codec.compress inp.data).length < inp.data.length :=
            ⟨hm, ((shouldCompressBySize_eq_true o inp.data.length).mp hsz).1,
              hub, hlt⟩
          rw [inMemory_compressed codec o inp cur hfits hsz hlt, if_pos hcond]
          simp [Except.map]
        · have hcond : ¬ (CompressMatcher.matchPath (some f) inp.path = true ∧
              o.minCompressSize ≤ inp.data.length ∧
              inp.data.length ≤ o.maxCompressSize ∧
              (codec.compress inp.data).length < inp.data.length) := by
            rintro ⟨-, -, -, hlt2⟩; exact hlt hlt2
          rw [inMemory_raw codec o inp cur hfits (Or.inr (Nat.le_of_not_lt hlt)),
            if_neg hcond]
          simp [Except.map]
      · have hm' : CompressMatcher.matchPath (some f) inp.path = false := by
          simpa using hm
        have hcond : ¬ (CompressMatcher.matchPath (some f) inp.path = true ∧
            o.minCompressSize ≤ inp.data.length ∧
            inp.data.length ≤ o.maxCompressSize ∧
            (codec.compress inp.data).length < inp.data.length) := by
          rintro ⟨hm2, -, -, -⟩; exact hm hm2
        have hif : (if inp.data.length = 0
            then CompressMatcher.matchPath (some f) inp.path
            else shouldCompressBySize o inp.data.length
                  && CompressMatcher.matchPath (some f) inp.path) = false := by
          rw [if_neg h0, hm', Bool.and_false]
        rw [if_neg hcond, hif, writeInputPayload_false,
          writeUncompressedPayload_of_le hfits]
        simp [Except.map]
    · have hrange : ¬ (o.minCompressSize ≤ inp.data.length ∧
          inp.data.length ≤ o.maxCompressSize) := by
        rw [← shouldCompressBySize_eq_true]; simpa using hsz
      have hcond : ¬ (CompressMatcher.matchPath (some f) inp.path = true ∧
          o.minCompressSize ≤ inp.data.length ∧
          inp.data.length ≤ o.maxCompressSize ∧
          (codec.compress inp.data).length < inp.data.length) := by
        rintro ⟨-, hlo, hhi, -⟩; exact hrange ⟨hlo, hhi⟩
      have hif : (if inp.data.length = 0
          then CompressMatcher.matchPath (some f) inp.path
          else shouldCompressBySize o inp.data.length
                && CompressMatcher.matchPath (some f) inp.path) = false := by
        rw [if_neg h0]
        simp only [Bool.not_eq_true] at hsz
        rw [hsz, Bool.false_and]
      rw [if_neg hcond, hif, writeInputPayload_false,
        writeUncompressedPayload_of_le hfits]
      simp [Except.map]

/-- C4 — for an input-backed entry packed with non-empty compression rules
and a size hint equal to its true payload length, the entry is stored
LZSS-compressed (mime = Cprs, original_size = raw length, data_size =
compressed length) iff the matcher accepts its slash-normalized path, the
size lies within [MinCompressSize, MaxCompressSize], and the compressed
payload is strictly smaller; in every other case the raw bytes are
written with mime 0 (and zero original size). -/
theorem compression_decision_iff (codec : Codec) (o : PackOptions)
    (f : List Nat → Bool) (inp : Input) (cur : Nat) (r : Written) (p : List Nat)
    (hmax : o.maxCompressSize ≤ u32Max)
    (hhint : inp.sizeHint = (inp.data.length : Int))
    (hok : writeRewriteInputPayload codec o (some f) inp cur = .ok (r, p)) :
    (r.mime = mimeCompressC ↔
      (CompressMatcher.matchPath (some f) inp.path = true ∧
        o.minCompressSize ≤ inp.data.length ∧
        inp.data.length ≤ o.maxCompressSize ∧
        (codec.compress inp.data).length < inp.data.length)) ∧
    (r.mime = mimeCompressC →
      r.originalSize = inp.data.length ∧
      r.dataSize = (codec.compress inp.data).length ∧
      p = codec.compress inp.data) ∧
    (r.mime ≠ mimeCompressC →
      r.mime = mimeNilC ∧ r.dataSize = inp.data.length ∧
      r.originalSize = 0 ∧ p = inp.data) := by
  by_cases hfits : inp.data.length ≤ u32Max - cur
  · rw [wrip_outcome codec o f inp cur hmax hhint hfits] at hok
    by_cases hcond : (CompressMatcher.matchPath (some f) inp.path = true ∧
        o.minCompressSize ≤ inp.data.length ∧
        inp.data.length ≤ o.maxCompressSize ∧
        (codec.compress inp.data).length < inp.data.length)
    · rw [if_pos hcond] at hok
      simp only [Except.ok.injEq, Prod.mk.injEq] at hok
      obtain ⟨hr, hp⟩ := hok
      subst hr; subst hp
      exact ⟨⟨fun _ => hcond, fun _ => rfl⟩, fun _ => ⟨rfl, rfl, rfl⟩,
        fun hne => absurd rfl hne⟩
    · rw [if_neg hcond] at hok
      simp only [Except.ok.injEq, Prod.mk.injEq] at hok
      obtain ⟨hr, hp⟩ := hok
      subst hr; subst hp
      refine ⟨⟨fun hcp => absurd hcp mimeNil_ne_compress, fun hc => absurd hc hcond⟩,
        fun hcp => absurd hcp mimeNil_ne_compress, fun _ => ⟨rfl, rfl, rfl, rfl⟩⟩
  · exfalso
    rw [writeRewriteInputPayload_eq,
      writeInputPayload_overflow codec o inp _ cur hhint (Nat.lt_of_not_le hfits)]
      at hok
    simp [Except.map] at hok

/-- Concrete codec for evaluation: a compressor that always emits one
byte, with a decompressor that is irrelevant to the writer path. -/
def c4Codec : Codec :=
  { compress := fun _ => [7], decompress := fun _ _ => none }

def c4Opts : PackOptions := { minCompressSize := 1, maxCompressSize := 10 }

def c4Inp : Input := { path := [97], data := [7, 7, 7, 7], sizeHint := 4 }

def c4Rec : Written :=
  { path := [97], dataSize := 1, originalSize := 4, mime := mimeCompressC,
    timestamp := 0, candidate := true }

/-- Witness for `compression_decision_iff` at a concrete compressible
input. -/
theorem compression_decision_iff_witness :
    c4Opts.maxCompressSize ≤ u32Max ∧
    c4Inp.sizeHint = (c4Inp.data.length : Int) ∧
    writeRewriteInputPayload c4Codec c4Opts (some fun _ => true) c4Inp 0 =
      .ok (c4Rec, [7]) ∧
    ((c4Rec.mime = mimeCompressC ↔
      (CompressMatcher.matchPath (some fun _ => true) c4Inp.path = true ∧
        c4Opts.minCompressSize ≤ c4Inp.data.length ∧
        c4Inp.data.length ≤ c4Opts.maxCompressSize ∧
        (c4Codec.compress c4Inp.data).length < c4Inp.data.length)) ∧
    (c4Rec.mime = mimeCompressC →
      c4Rec.originalSize = c4Inp.data.length ∧
      c4Rec.dataSize = (c4Codec.compress c4Inp.data).length ∧
      [7] = c4Codec.compress c4Inp.data) ∧
    (c4Rec.mime ≠ mimeCompressC →
      c4Rec.mime = mimeNilC ∧ c4Rec.dataSize = c4Inp.data.length ∧
      c4Rec.originalSize = 0 ∧ [7] = c4Inp.data)) :=
  ⟨by decide, by decide, by decide,
    compression_decision_iff c4Codec c4Opts (fun _ => true) c4Inp 0 c4Rec [7]
      (by decide) (by decide) (by decide)⟩

/-- C10 counterexample: with caller options MinCompressSize = 1000 and
MaxCompressSize = 500, applyDefaults does replace the max bound with the
16 MiB default, but an entry of size 700 — larger than the caller's
requested maximum and at most 16 MiB — is still rejected by the size
bound, because it is below MinCompressSize. -/
theorem applyDefaults_maxBound_counterexample :
    (({ minCompressSize := 1000, maxCompressSize := 500 } :
        PackOptions)).maxCompressSize ≠ 0 ∧
    (({ minCompressSize := 1000, maxCompressSize := 500 } :
        PackOptions)).maxCompressSize ≤
      (({ minCompressSize := 1000, maxCompressSize := 500 } :
        PackOptions)).minCompressSize ∧
    (({ minCompressSize := 1000, maxCompressSize := 500 } :
        PackOptions)).applyDefaults.maxCompressSize = defaultMaxCompressSize ∧
    (({ minCompressSize := 1000, maxCompressSize := 500 } :
        PackOptions)).maxCompressSize < 700 ∧
    700 ≤ defaultMaxCompressSize ∧
    shouldCompressBySize
      (({ minCompressSize := 1000, maxCompressSize := 500 } :
        PackOptions)).applyDefaults 700 = false := by
  refine ⟨by decide, by decide, ?_, by decide, by decide, ?_⟩ <;>
    simp [PackOptions.applyDefaults, shouldCompressBySize, defaultMaxCompressSize,
      defaultWriteBuffer]

/-- C10 (amended) — a caller-set non-zero MaxCompressSize at most
MinCompressSize is silently replaced by the 16 MiB default, so entries
larger than the caller's requested maximum are admitted by the size
bound of the compression policy provided they are at least
MinCompressSize and at most 16 MiB. -/
theorem applyDefaults_maxBound (o : PackOptions) (s : Nat)
    (h1 : o.maxCompressSize ≠ 0) (h2 : o.maxCompressSize ≤ o.minCompressSize)
    (h3 : o.maxCompressSize < s) (h4 : o.minCompressSize ≤ s)
    (h5 : s ≤ defaultMaxCompressSize) :
    o.applyDefaults.maxCompressSize = defaultMaxCompressSize ∧
    shouldCompressBySize o.applyDefaults s = true := by
  have hmin0 : o.minCompressSize ≠ 0 := by omega
  have hmm : o.applyDefaults.minCompressSize = o.minCompressSize := by
    simp [PackOptions.applyDefaults, hmin0]
  have hmx : o.applyDefaults.maxCompressSize = defaultMaxCompressSize := by
    simp [PackOptions.applyDefaults, hmin0, h1, h2]
  refine ⟨hmx, ?_⟩
  rw [shouldCompressBySize_eq_true, hmm, hmx]
  exact ⟨h4, h5⟩

/-- Witness for `applyDefaults_maxBound` at caller bounds (1000, 500) and
entry size 1500. -/
theorem applyDefaults_maxBound_witness :
    (({ minCompressSize := 1000, maxCompressSize := 500 } :
        PackOptions)).applyDefaults.maxCompressSize = defaultMaxCompressSize ∧
    shouldCompressBySize
      (({ minCompressSize := 1000, maxCompressSize := 500 } :
        PackOptions)).applyDefaults 1500 = true :=
  applyDefaults_maxBound _ 1500 (by decide) (by decide) (by decide) (by decide)
    (by decide)

/-! ## Offset-resolver lemmas -/

/-- Agreement of every entry field except the offset. -/
def SameButOffset (a b : EntryInfo) : Prop :=
  a.path = b.path ∧ a.dataSize = b.dataSize ∧ a.originalSize = b.originalSize ∧
    a.timeStamp = b.timeStamp ∧ a.mime = b.mime

theorem sameButOffset_refl (l : List EntryInfo) :
    List.Forall₂ SameButOffset l l := by
  induction l with
  | nil => exact List.Forall₂.nil
  | cons e rest ih => exact List.Forall₂.cons ⟨rfl, rfl, rfl, rfl, rfl⟩ ih

theorem sameButOffset_trans {a b c : List EntryInfo}
    (h1 : List.Forall₂ SameButOffset a b) (h2 : List.Forall₂ SameButOffset b c) :
    List.Forall₂ SameButOffset a c := by
  induction h1 generalizing c with
  | nil => cases h2; exact .nil
  | cons hxy _ ih =>
      cases h2 with
      | cons hyz htail =>
          exact .cons ⟨hxy.1.trans hyz.1, hxy.2.1.trans hyz.2.1,
            hxy.2.2.1.trans hyz.2.2.1, hxy.2.2.2.1.trans hyz.2.2.2.1,
            hxy.2.2.2.2.trans hyz.2.2.2.2⟩ (ih htail)

/-- A stored-offset assignment pass only rewrites offsets. -/
theorem assignStoredGo_sameButOffset (d t adj : Nat) :
    ∀ (l : List EntryInfo) (prev : Int),
      List.Forall₂ SameButOffset l (assignStoredGo d t adj l prev).1 := by
  intro l
  induction l with
  | nil => intro prev; exact List.Forall₂.nil
  | cons e rest ih =>
      intro prev
      unfold assignStoredGo
      by_cases h1 : e.offset + adj < d
      · simp only [if_pos h1]; exact sameButOffset_refl _
      · rw [if_neg h1]
        by_cases h2 : e.offset + adj > u32Max
        · simp only [if_pos h2]; exact sameButOffset_refl _
        · rw [if_neg h2]
          by_cases h3 : ((e.offset + adj : Nat) : Int) < prev
          · simp only [if_pos h3]; exact sameButOffset_refl _
          · rw [if_neg h3]
            by_cases h4 : e.offset + adj + e.dataSize > t
            · simp only [if_pos h4]; exact sameButOffset_refl _
            · rw [if_neg h4]
              cases hrec : assignStoredGo d t adj rest ((e.offset + adj : Nat) : Int)
                with
              | mk tail ok =>
                  have := ih ((e.offset + adj : Nat) : Int)
                  rw [hrec] at this
                  exact List.Forall₂.cons ⟨rfl, rfl, rfl, rfl, rfl⟩ this

/-- Sequential assignment ignores input offsets: it agrees on any two
entry lists equal up to offsets. -/
theorem assignSequentialOffsets_congr {l l' : List EntryInfo} (d : Nat)
    (h : List.Forall₂ SameButOffset l l') :
    assignSequentialOffsets l d = assignSequentialOffsets l' d := by
  unfold assignSequentialOffsets
  by_cases hd : d > u32Max
  · simp [hd]
  · rw [if_neg hd, if_neg hd]
    suffices hgo : ∀ (a b : List EntryInfo), List.Forall₂ SameButOffset a b →
        ∀ cur, assignSequentialOffsets.go a cur = assignSequentialOffsets.go b cur by
      exact hgo l l' h d
    intro a b hab
    induction hab with
    | nil => intro cur; rfl
    | @cons x y xs ys hxy _ ih =>
        intro cur
        obtain ⟨hp, hds, hos, hts, hm⟩ := hxy
        unfold assignSequentialOffsets.go
        rw [hds, ih (cur + y.dataSize)]
        by_cases hbig : y.dataSize > u32Max - cur
        · simp [hbig]
        · rw [if_neg hbig, if_neg hbig]
          cases hrec : assignSequentialOffsets.go ys (cur + y.dataSize) with
          | ok tail =>
              simp only [Except.bind, bind, pure, Except.pure]
              obtain ⟨p1, o1, d1, t1, m1⟩ := x
              obtain ⟨p2, o2, d2, t2, m2⟩ := y
              simp only at hp hds hos hts hm
              subst hp hds hos hts hm
              rfl
          | error e => simp [Except.bind, bind]

/-- Sequential assignment only fails with SIZE_OVERFLOW. -/
theorem assignSequentialOffsets_error {l : List EntryInfo} {d : Nat} {e : Err}
    (h : assignSequentialOffsets l d = .error e) : e = .sizeOverflow := by
  unfold assignSequentialOffsets at h
  by_cases hd : d > u32Max
  · rw [if_pos hd] at h
    cases h; rfl
  · rw [if_neg hd] at h
    clear hd
    induction l generalizing d with
    | nil => simp [assignSequentialOffsets.go] at h
    | cons x xs ih =>
        unfold assignSequentialOffsets.go at h
        by_cases hbig : x.dataSize > u32Max - d
        · rw [if_pos hbig] at h
          cases h; rfl
        · rw [if_neg hbig] at h
          cases hrec : assignSequentialOffsets.go xs (d + x.dataSize) with
          | ok tail =>
              rw [hrec] at h
              simp [Except.bind, bind, pure, Except.pure] at h
          | error e2 =>
              rw [hrec] at h
              simp only [Except.bind, bind] at h
              cases h
              exact ih hrec

/-- The final validation pass only fails with one of its two
INVALID_ENTRY_OFFSET messages. -/
theorem validateResolvedOffsets_error {l : List EntryInfo} {d t : Nat} {e : Err}
    (h : validateResolvedOffsets l d t = .error e) :
    e = .invalidEntryOffset "offset before data start" ∨
      e = .invalidEntryOffset "payload out of file bounds" := by
  induction l with
  | nil => simp [validateResolvedOffsets] at h
  | cons x xs ih =>
      unfold validateResolvedOffsets at h
      by_cases h1 : x.offset < d
      · rw [if_pos h1] at h; cases h; exact Or.inl rfl
      · rw [if_neg h1] at h
        by_cases h2 : x.offset + x.dataSize > t
        · rw [if_pos h2] at h; cases h; exact Or.inr rfl
        · rw [if_neg h2] at h; exact ih h

/-- C9 — with every stored index offset equal to zero, StoredStrict mode
resolves exactly like the default Sequential mode (no
INVALID_ENTRY_OFFSET from the absence of stored offsets); and the
strict-mode stored-offset failure can only occur when some stored offset
is non-zero and both interpretations of the stored offsets fail. -/
theorem storedStrict_zero_offsets (entries : List EntryInfo)
    (dataStart totalSize : Nat) :
    ((∀ e ∈ entries, e.offset = 0) →
      resolveEntryOffsets entries dataStart totalSize .storedStrict =
        resolveEntryOffsets entries dataStart totalSize .sequential) ∧
    (resolveEntryOffsets entries dataStart totalSize .storedStrict =
        .error (.invalidEntryOffset "stored offsets are malformed") →
      (∃ e ∈ entries, e.offset ≠ 0) ∧
      (assignStoredOffsets entries dataStart totalSize
        (firstOffsetHeuristicAbsolute entries dataStart)).2 = false ∧
      (assignStoredOffsets
        (assignStoredOffsets entries dataStart totalSize
          (firstOffsetHeuristicAbsolute entries dataStart)).1
        dataStart totalSize
        (!firstOffsetHeuristicAbsolute entries dataStart)).2 = false) := by
  constructor
  · intro hz
    have htry : tryAssignStoredOffsets entries dataStart totalSize = .unused := by
      unfold tryAssignStoredOffsets
      by_cases he : entries.isEmpty
      · rw [if_pos he]
      · rw [if_neg he]
        have hall : entries.all (fun e => e.offset == 0) = true := by
          rw [List.all_eq_true]
          intro e hmem
          exact beq_iff_eq.mpr (hz e hmem)
        rw [if_pos hall]
    simp only [resolveEntryOffsets, resolveByMode, htry]
  · intro h
    simp only [resolveEntryOffsets, resolveByMode] at h
    cases htry : tryAssignStoredOffsets entries dataStart totalSize with
    | used es =>
        rw [htry] at h
        simp only [Except.bind, bind, pure, Except.pure] at h
        cases hv : validateResolvedOffsets es dataStart totalSize with
        | ok u => rw [hv] at h; simp at h
        | error e2 =>
            rw [hv] at h
            simp only [Except.error.injEq] at h
            rcases validateResolvedOffsets_error hv with h2 | h2 <;>
              · rw [h2] at h; simp at h
    | unused =>
        rw [htry] at h
        simp only [Except.bind, bind, pure, Except.pure] at h
        cases hs : assignSequentialOffsets entries dataStart with
        | ok es =>
            rw [hs] at h
            simp only [] at h
            cases hv : validateResolvedOffsets es dataStart totalSize with
            | ok u => rw [hv] at h; simp at h
            | error e2 =>
                rw [hv] at h
                simp only [Except.error.injEq] at h
                rcases validateResolvedOffsets_error hv with h2 | h2 <;>
                  · rw [h2] at h; simp at h
        | error e2 =>
            rw [hs] at h
            simp only [Except.error.injEq] at h
            rw [assignSequentialOffsets_error hs] at h
            simp at h
    | malformed es =>
        clear h
        unfold tryAssignStoredOffsets at htry
        by_cases he : entries.isEmpty
        · rw [if_pos he] at htry; simp at htry
        · rw [if_neg he] at htry
          by_cases hall : entries.all (fun e => e.offset == 0)
          · rw [if_pos hall] at htry; simp at htry
          · rw [if_neg hall] at htry
            refine ⟨?_, ?_⟩
            · have := hall
              rw [List.all_eq_true] at this
              push_neg at this
              obtain ⟨e, hmem, hne⟩ := this
              exact ⟨e, hmem, fun hzero => hne (beq_iff_eq.mpr hzero)⟩
            · rcases hA : assignStoredOffsets entries dataStart totalSize
                (firstOffsetHeuristicAbsolute entries dataStart) with ⟨es1, ok1⟩
              rw [hA] at htry
              simp only [] at htry
              cases ok1 with
              | true => simp at htry
              | false =>
                  simp only [Bool.false_eq_true, if_false, reduceIte] at htry
                  rcases hB : assignStoredOffsets es1 dataStart totalSize
                    (!firstOffsetHeuristicAbsolute entries dataStart) with ⟨es2, ok2⟩
                  rw [hB] at htry
                  cases ok2 with
                  | true => simp at htry
                  | false => simp [hA, hB]

/-- Witness for `storedStrict_zero_offsets`: one zero-offset entry. -/
theorem storedStrict_zero_offsets_witness :
    resolveEntryOffsets [⟨[97], 0, 5, 0, 0, 0⟩] 22 27 .storedStrict =
      resolveEntryOffsets [⟨[97], 0, 5, 0, 0, 0⟩] 22 27 .sequential :=
  (storedStrict_zero_offsets [⟨[97], 0, 5, 0, 0, 0⟩] 22 27).1 (by decide)

/-- C6 counterexample — dataStart 100, file size 400, stored offsets
(0, 350), sizes (10, 40).  The heuristic picks the relative
interpretation, which fails at the second entry after already resolving
the first entry's offset to 100 in place.  The second (absolute) attempt
then runs on the mutated array and succeeds with offsets (100, 350) —
but the absolute interpretation applied to the originally stored offsets
(0, 350) fails outright (0 is before data start), so the successful
second attempt does not equal the other interpretation of the original
stored values. -/
theorem storedCompat_counterexample :
    firstOffsetHeuristicAbsolute
      [⟨[97], 0, 10, 0, 0, 0⟩, ⟨[98], 350, 40, 0, 0, 0⟩] 100 = false ∧
    (assignStoredOffsets
      [⟨[97], 0, 10, 0, 0, 0⟩, ⟨[98], 350, 40, 0, 0, 0⟩] 100 400 false).2
      = false ∧
    tryAssignStoredOffsets
      [⟨[97], 0, 10, 0, 0, 0⟩, ⟨[98], 350, 40, 0, 0, 0⟩] 100 400 =
      .used [⟨[97], 100, 10, 0, 0, 0⟩, ⟨[98], 350, 40, 0, 0, 0⟩] ∧
    (assignStoredOffsets
      [⟨[97], 0, 10, 0, 0, 0⟩, ⟨[98], 350, 40, 0, 0, 0⟩] 100 400 true).2
      = false ∧
    resolveEntryOffsets
      [⟨[97], 0, 10, 0, 0, 0⟩, ⟨[98], 350, 40, 0, 0, 0⟩] 100 400 .storedCompat =
      .ok [⟨[97], 100, 10, 0, 0, 0⟩, ⟨[98], 350, 40, 0, 0, 0⟩] := by
  decide

/-- C6 (amended) — in StoredCompat mode with meaningful stored offsets,
when the heuristic-chosen first interpretation fails, the offsets the
failed attempt already resolved stay in place and the other
interpretation is applied to this partially-resolved array: a successful
second attempt yields exactly the other interpretation of the
post-first-attempt array state; if the second attempt also fails, the
mode silently falls back to the Sequential result. -/
theorem storedCompat_second_attempt (entries : List EntryInfo)
    (dataStart totalSize : Nat)
    (hne : entries.isEmpty = false)
    (hnz : entries.all (fun e => e.offset == 0) = false)
    (h1 : (assignStoredOffsets entries dataStart totalSize
      (firstOffsetHeuristicAbsolute entries dataStart)).2 = false) :
    ((assignStoredOffsets
        (assignStoredOffsets entries dataStart totalSize
          (firstOffsetHeuristicAbsolute entries dataStart)).1
        dataStart totalSize (!firstOffsetHeuristicAbsolute entries dataStart)).2
          = true →
      tryAssignStoredOffsets entries dataStart totalSize =
        .used (assignStoredOffsets
          (assignStoredOffsets entries dataStart totalSize
            (firstOffsetHeuristicAbsolute entries dataStart)).1
          dataStart totalSize
          (!firstOffsetHeuristicAbsolute entries dataStart)).1) ∧
    ((assignStoredOffsets
        (assignStoredOffsets entries dataStart totalSize
          (firstOffsetHeuristicAbsolute entries dataStart)).1
        dataStart totalSize (!firstOffsetHeuristicAbsolute entries dataStart)).2
          = false →
      resolveEntryOffsets entries dataStart totalSize .storedCompat =
        resolveEntryOffsets entries dataStart totalSize .sequential) := by
  have htry : ∀ es2 ok2,
      assignStoredOffsets
        (assignStoredOffsets entries dataStart totalSize
          (firstOffsetHeuristicAbsolute entries dataStart)).1
        dataStart totalSize (!firstOffsetHeuristicAbsolute entries dataStart)
        = (es2, ok2) →
      tryAssignStoredOffsets entries dataStart totalSize =
        if ok2 then .used es2 else .malformed es2 := by
    intro es2 ok2 hB
    unfold tryAssignStoredOffsets
    rw [if_neg (by simp [hne]), if_neg (by simp [hnz])]
    rcases hA : assignStoredOffsets entries dataStart totalSize
      (firstOffsetHeuristicAbsolute entries dataStart) with ⟨es1, ok1⟩
    rw [hA] at h1 hB
    simp only [] at h1
    subst h1
    simp only [Bool.false_eq_true, if_false, reduceIte]
    rw [hB]
  constructor
  · intro h2
    rcases hB : assignStoredOffsets
      (assignStoredOffsets entries dataStart totalSize
        (firstOffsetHeuristicAbsolute entries dataStart)).1
      dataStart totalSize (!firstOffsetHeuristicAbsolute entries dataStart)
      with ⟨es2, ok2⟩
    rw [hB] at h2
    simp only [] at h2
    subst h2
    rw [htry es2 true hB]
    simp
  · intro h2
    rcases hB : assignStoredOffsets
      (assignStoredOffsets entries dataStart totalSize
        (firstOffsetHeuristicAbsolute entries dataStart)).1
      dataStart totalSize (!firstOffsetHeuristicAbsolute entries dataStart)
      with ⟨es2, ok2⟩
    rw [hB] at h2
    simp only [] at h2
    subst h2
    have ht := htry es2 false hB
    simp only [Bool.false_eq_true, if_false, reduceIte] at ht
    have hsame : List.Forall₂ SameButOffset entries es2 := by
      have s1 := assignStoredGo_sameButOffset dataStart totalSize
        (if firstOffsetHeuristicAbsolute entries dataStart then 0 else dataStart)
        entries (-1)
      have s2 := assignStoredGo_sameButOffset dataStart totalSize
        (if !firstOffsetHeuristicAbsolute entries dataStart then 0 else dataStart)
        (assignStoredOffsets entries dataStart totalSize
          (firstOffsetHeuristicAbsolute entries dataStart)).1 (-1)
      rw [show (assignStoredGo dataStart totalSize
          (if !firstOffsetHeuristicAbsolute entries dataStart then 0 else dataStart)
          (assignStoredOffsets entries dataStart totalSize
            (firstOffsetHeuristicAbsolute entries dataStart)).1 (-1)) =
          assignStoredOffsets
            (assignStoredOffsets entries dataStart totalSize
              (firstOffsetHeuristicAbsolute entries dataStart)).1
            dataStart totalSize (!firstOffsetHeuristicAbsolute entries dataStart)
          from rfl, hB] at s2
      exact sameButOffset_trans s1 s2
    simp only [resolveEntryOffsets, resolveByMode, ht]
    rw [assignSequentialOffsets_congr dataStart hsame]

/-- Witness for `storedCompat_second_attempt` on the mixed-offset
archive shape of the counterexample. -/
theorem storedCompat_second_attempt_witness :
    tryAssignStoredOffsets
      [⟨[97], 0, 10, 0, 0, 0⟩, ⟨[98], 350, 40, 0, 0, 0⟩] 100 400 =
      .used (assignStoredOffsets
        (assignStoredOffsets
          [⟨[97], 0, 10, 0, 0, 0⟩, ⟨[98], 350, 40, 0, 0, 0⟩] 100 400
          (firstOffsetHeuristicAbsolute
            [⟨[97], 0, 10, 0, 0, 0⟩, ⟨[98], 350, 40, 0, 0, 0⟩] 100)).1
        100 400
        (!firstOffsetHeuristicAbsolute
          [⟨[97], 0, 10, 0, 0, 0⟩, ⟨[98], 350, 40, 0, 0, 0⟩] 100)).1 :=
  (storedCompat_second_attempt
    [⟨[97], 0, 10, 0, 0, 0⟩, ⟨[98], 350, 40, 0, 0, 0⟩] 100 400
    (by decide) (by decide) (by decide)).1 (by decide)

/-! ## Binary primitives -/

/-- Little-endian u32 encoding of `n % 2^32`. -/
def u32le (n : Nat) : List Nat :=
  [n % 256, n / 256 % 256, n / 65536 % 256, n / 16777216 % 256]

/-- Little-endian u32 decoding of four bytes. -/
def readU32 (a b c d : Nat) : Nat :=
  a + 256 * b + 65536 * c + 16777216 * d

theorem readU32_u32le (n : Nat) (h : n < 4294967296) :
    readU32 (n % 256) (n / 256 % 256) (n / 65536 % 256) (n / 16777216 % 256)
      = n := by
  unfold readU32
  omega

/-- `readNullTerminated`: split at the first NUL byte; `none` models the
EOF error when no terminator exists in the remaining bytes. -/
def splitAtNul : List Nat → Option (List Nat × List Nat)
  | [] => none
  | b :: rest =>
      if b == 0 then some ([], rest)
      else
        match splitAtNul rest with
        | none => none
        | some (s, r) => some (b :: s, r)

theorem splitAtNul_length : ∀ {l s r : List Nat},
    splitAtNul l = some (s, r) → l.length = s.length + 1 + r.length := by
  intro l
  induction l with
  | nil => intro s r h; simp [splitAtNul] at h
  | cons b rest ih =>
      intro s r h
      unfold splitAtNul at h
      by_cases hb : b == 0
      · rw [if_pos hb] at h
        cases h
        simp
        omega
      · rw [if_neg hb] at h
        cases hsp : splitAtNul rest with
        | none => rw [hsp] at h; cases h
        | some p =>
            obtain ⟨s2, r2⟩ := p
            rw [hsp] at h
            cases h
            have := ih hsp
            simp [this]
            omega

/-! ## Reader options and parsed archive -/

/-- `ReaderOptions` after `applyDefaults` (empty mode becomes
Sequential). -/
structure ReaderOptions where
  offsetMode : OffsetMode := .sequential
  enableJunkFilter : Bool := false
  deriving DecidableEq, Repr

/-- The parsed state of a `Reader`: header pairs, entries, payload start,
source size and trailer presence. -/
structure ParsedPBO where
  hdrs : List (List Nat × List Nat)
  entries : List EntryInfo
  dataStart : Nat
  size : Nat
  hasTrailer : Bool
  deriving DecidableEq, Repr

/-- The key/value loop of `parseHeaderSection`: read NUL-terminated keys
and values until an empty key; returns the pairs, the remaining bytes and
the absolute offset after the terminator.  The fuel argument (one unit
per pair, at least `l.length` in the caller) only bounds the recursion
so that the loop stays structurally recursive; exhausting it models the
same EOF error as running out of bytes. -/
def parseHeaderKVs : Nat → List Nat → Nat →
    Except Err (List (List Nat × List Nat) × List Nat × Nat)
  | 0, _, _ => .error .eofError
  | fuel + 1, l, off =>
      match splitAtNul l with
      | none => .error .eofError
      | some (key, rest1) =>
          if key == ([] : List Nat) then .ok ([], rest1, off + 1)
          else
            match splitAtNul rest1 with
            | none => .error .eofError
            | some (value, rest2) =>
                match parseHeaderKVs fuel rest2
                  (off + key.length + 1 + value.length + 1) with
                | .error e => .error e
                | .ok (hdrs, rest, off2) => .ok ((key, value) :: hdrs, rest, off2)

/-- `parseEntriesBuffered`: read records (NUL-terminated name then five
little-endian u32 fields) until the all-zero empty-name terminator;
names over 512 bytes fail FILE_NAME_TOO_LONG.  Returns raw entries with
their stored offsets and the payload start offset.  Fuel as in
`parseHeaderKVs`. -/
def parseEntriesLoop : Nat → List Nat → Nat → Except Err (List EntryInfo × Nat)
  | 0, _, _ => .error .eofError
  | fuel + 1, l, off =>
      match splitAtNul l with
      | none => .error .eofError
      | some (name, rest) =>
          match rest with
          | m0 :: m1 :: m2 :: m3 :: o0 :: o1 :: o2 :: o3 :: f0 :: f1 :: f2 :: f3 ::
              t0 :: t1 :: t2 :: t3 :: d0 :: d1 :: d2 :: d3 :: rest2 =>
              let mime := readU32 m0 m1 m2 m3
              let orig := readU32 o0 o1 o2 o3
              let stOff := readU32 f0 f1 f2 f3
              let ts := readU32 t0 t1 t2 t3
              let ds := readU32 d0 d1 d2 d3
              let off2 := off + name.length + 1 + 20
              if name == ([] : List Nat) && mime == 0 && orig == 0 && stOff == 0
                  && ts == 0 && ds == 0 then
                .ok ([], off2)
              else if name.length > maxNameLenC then .error .fileNameTooLong
              else
                match parseEntriesLoop fuel rest2 off2 with
                | .error e => .error e
                | .ok (es, dataStart) =>
                    .ok (⟨name, stOff, ds, orig, ts, mime⟩ :: es, dataStart)
          | _ => .error .eofError

/-! ## Extraction-safety path normalization -/

/-- `isASCIIAlpha`. -/
def isASCIIAlpha (b : Nat) : Bool :=
  (97 ≤ b && b ≤ 122) || (65 ≤ b && b ≤ 90)

/-- `hasWindowsAbsDrivePrefix`: a leading `X:/` drive-root marker. -/
def hasWindowsAbsDrive (l : List Nat) : Bool :=
  match l with
  | a :: b :: c :: _ => isASCIIAlpha a && b == 58 && c == 47
  | _ => false

/-- The segment pass of `normalizeExtractEntryPath`: empty and `.`
segments are skipped, `..` rejects the whole path. -/
def cleanExtractParts : List (List Nat) → Option (List (List Nat))
  | [] => some []
  | p :: rest =>
      if p == ([] : List Nat) || p == [46] then cleanExtractParts rest
      else if p == [46, 46] then none
      else (cleanExtractParts rest).map (p :: ·)

/-- `normalizeExtractEntryPath`: trim, reject empty / NUL / absolute /
drive-prefixed paths and `..` segments; an empty cleaned result fails
INVALID_EXTRACT_PATH. -/
def normalizeExtractEntryPath (entryPath : List Nat) : Except Err (List Nat) :=
  let raw := trimSpace entryPath
  if raw == ([] : List Nat) then .error .invalidExtractPath
  else if raw.contains 0 then .error .invalidExtractPath
  else if raw.take 1 == [47] || raw.take 1 == [92] then .error .invalidExtractPath
  else
    let raw2 := replaceByte 92 47 raw
    if hasWindowsAbsDrive raw2 then .error .invalidExtractPath
    else
      match cleanExtractParts (splitSlash raw2) with
      | none => .error .invalidExtractPath
      | some cleanParts =>
          if cleanParts == ([] : List (List Nat)) then .error .invalidExtractPath
          else .ok (joinSlash cleanParts)

/-- `filterJunkEntries`: drop zero-size entries, compressed entries with
zero original size, and entries whose path fails the extraction-safety
normalizer. -/
def filterJunkEntries (entries : List EntryInfo) : List EntryInfo :=
  entries.filter fun e =>
    !(e.dataSize == 0) &&
    !(e.mime == mimeCompressC && e.originalSize == 0) &&
    (match normalizeExtractEntryPath e.path with
      | .ok _ => true
      | .error _ => false)

/-! ## The parser (`Reader.parse`) -/

/-- `Reader.parse` over an in-memory byte source: fixed header check,
header pairs, entry table, offset resolution, optional junk filter and
trailer detection. -/
def parsePBO (file : List Nat) (opts : ReaderOptions) : Except Err ParsedPBO :=
  if file.length < headerSizeC then .error .invalidHeader
  else if !(readU32 (file.getD 1 0) (file.getD 2 0) (file.getD 3 0) (file.getD 4 0)
      == mimeHeaderC) then .error .invalidHeader
  else do
    let (hdrs, rest, off) ← parseHeaderKVs file.length (file.drop headerSizeC)
      headerSizeC
    let (raws, dataStart) ← parseEntriesLoop file.length rest off
    let resolved ← resolveEntryOffsets raws dataStart file.length opts.offsetMode
    let entries := if opts.enableJunkFilter then filterJunkEntries resolved
      else resolved
    let hasTrailer := decide (file.length ≥ 21) && file.getD (file.length - 21) 1 == 0
    pure ⟨hdrs, entries, dataStart, file.length, hasTrailer⟩

theorem validateResolvedOffsets_ok_forall {es : List EntryInfo} {d t : Nat}
    (h : validateResolvedOffsets es d t = .ok ()) :
    ∀ e ∈ es, d ≤ e.offset ∧ e.offset + e.dataSize ≤ t := by
  induction es with
  | nil => intro e he; cases he
  | cons x xs ih =>
      unfold validateResolvedOffsets at h
      by_cases h1 : x.offset < d
      · rw [if_pos h1] at h; cases h
      · rw [if_neg h1] at h
        by_cases h2 : x.offset + x.dataSize > t
        · rw [if_pos h2] at h; cases h
        · rw [if_neg h2] at h
          intro e he
          rcases List.mem_cons.mp he with rfl | hmem
          · exact ⟨Nat.le_of_not_lt h1, Nat.le_of_not_lt h2⟩
          · exact ih h e hmem

theorem except_tail {inner : Except Err (List EntryInfo)} {d t : Nat}
    {es : List EntryInfo}
    (h : (do
        let resolved ← inner
        let _ ← validateResolvedOffsets resolved d t
        pure resolved) = Except.ok es) :
    inner = .ok es ∧ validateResolvedOffsets es d t = .ok () := by
  cases hi : inner with
  | error e => rw [hi] at h; simp [Except.bind, bind] at h
  | ok res =>
      rw [hi] at h
      simp only [Except.bind, bind] at h
      cases hv : validateResolvedOffsets res d t with
      | error e => rw [hv] at h; simp at h
      | ok u =>
          rw [hv] at h
          cases u
          simp only [pure, Except.pure, Except.ok.injEq] at h
          subst h
          exact ⟨rfl, hv⟩

theorem resolveEntryOffsets_validated {entries : List EntryInfo} {d t : Nat}
    {mode : OffsetMode} {es : List EntryInfo}
    (h : resolveEntryOffsets entries d t mode = .ok es) :
    validateResolvedOffsets es d t = .ok () := by
  unfold resolveEntryOffsets at h
  exact (except_tail h).2

/-- C3 — whenever the parser succeeds, regardless of offset mode, every
parsed entry's resolved payload interval `[offset, offset + dataSize)`
lies inside `[dataStart, fileSize]`. -/
theorem parse_offsets_in_bounds (file : List Nat) (opts : ReaderOptions)
    (r : ParsedPBO) (h : parsePBO file opts = .ok r) :
    ∀ e ∈ r.entries, r.dataStart ≤ e.offset ∧ e.offset + e.dataSize ≤ file.length := by
  unfold parsePBO at h
  by_cases h1 : file.length < headerSizeC
  · rw [if_pos h1] at h; cases h
  · rw [if_neg h1] at h
    by_cases h2 : !(readU32 (file.getD 1 0) (file.getD 2 0) (file.getD 3 0)
        (file.getD 4 0) == mimeHeaderC)
    · rw [if_pos h2] at h; cases h
    · rw [if_neg h2] at h
      cases hkv : parseHeaderKVs file.length (file.drop headerSizeC) headerSizeC with
      | error e => rw [hkv] at h; simp [Except.bind, bind] at h
      | ok triple =>
          obtain ⟨hdrs, rest, off⟩ := triple
          rw [hkv] at h
          simp only [Except.bind, bind] at h
          cases hent : parseEntriesLoop file.length rest off with
          | error e => rw [hent] at h; simp at h
          | ok pair =>
              obtain ⟨raws, dataStart⟩ := pair
              rw [hent] at h
              simp only [] at h
              cases hres : resolveEntryOffsets raws dataStart file.length
                  opts.offsetMode with
              | error e => rw [hres] at h; simp at h
              | ok resolved =>
                  rw [hres] at h
                  simp only [pure, Except.pure, Except.ok.injEq] at h
                  subst h
                  intro e he
                  simp only [] at he
                  have hmem : e ∈ resolved := by
                    by_cases hj : opts.enableJunkFilter
                    · rw [if_pos hj] at he
                      exact List.mem_of_mem_filter he
                    · rwa [if_neg hj] at he
                  exact validateResolvedOffsets_ok_forall
                    (resolveEntryOffsets_validated hres) e hmem

/-- A minimal valid archive: fixed header, no header pairs, one entry
`"a"` of size 5 with zero stored offset, and a 5-byte payload. -/
def c3File : List Nat :=
  [0, 115, 114, 101, 86] ++ List.replicate 16 0 ++ [0] ++
    [97, 0] ++ List.replicate 16 0 ++ [5, 0, 0, 0] ++
    [0] ++ List.replicate 20 0 ++ [1, 2, 3, 4, 5]

def c3Parsed : ParsedPBO :=
  ⟨[], [⟨[97], 65, 5, 0, 0, 0⟩], 65, 70, true⟩

/-- Witness for `parse_offsets_in_bounds` on the minimal archive. -/
theorem parse_offsets_in_bounds_witness :
    c3Parsed.dataStart ≤ (⟨[97], 65, 5, 0, 0, 0⟩ : EntryInfo).offset ∧
    (⟨[97], 65, 5, 0, 0, 0⟩ : EntryInfo).offset +
      (⟨[97], 65, 5, 0, 0, 0⟩ : EntryInfo).dataSize ≤ c3File.length :=
  parse_offsets_in_bounds c3File {} c3Parsed (by decide) _ (by decide)

/-! ## Extraction work-item preparation -/

/-- One prepared extraction work item: the normalized (slash-form)
output-relative path and the entry.  The `filepath.FromSlash` /
directory-split steps are filesystem-side and identity on slash paths. -/
structure ExtractWorkItem where
  relPath : List Nat
  entry : EntryInfo
  deriving DecidableEq, Repr

/-- `prepareExtractWorkItems`: entries whose whitespace-trimmed path is
empty are skipped; the remaining paths go through the extraction-safety
normalizer, whose error aborts the whole preparation.  With
`RawNames = true`, `Extract` calls this directly on the selected entries
and returns its error before dispatching any worker. -/
def prepareExtractWorkItems : List EntryInfo → Except Err (List ExtractWorkItem)
  | [] => .ok []
  | e :: rest =>
      if trimSpace e.path == ([] : List Nat) then prepareExtractWorkItems rest
      else
        match normalizeExtractEntryPath e.path with
        | .error err => .error err
        | .ok normalized =>
            match prepareExtractWorkItems rest with
            | .error err => .error err
            | .ok items => .ok (⟨normalized, e⟩ :: items)

/-- Every rejection of the extraction-safety normalizer carries the
INVALID_EXTRACT_PATH kind. -/
theorem normalizeExtractEntryPath_error {p : List Nat} {err : Err}
    (h : normalizeExtractEntryPath p = .error err) : err = .invalidExtractPath := by
  unfold normalizeExtractEntryPath at h
  by_cases h1 : trimSpace p == ([] : List Nat)
  · rw [if_pos h1] at h; cases h; rfl
  · rw [if_neg h1] at h
    by_cases h2 : (trimSpace p).contains 0
    · rw [if_pos h2] at h; cases h; rfl
    · rw [if_neg h2] at h
      by_cases h3 : (trimSpace p).take 1 == [47] || (trimSpace p).take 1 == [92]
      · rw [if_pos h3] at h; cases h; rfl
      · rw [if_neg h3] at h
        by_cases h4 : hasWindowsAbsDrive (replaceByte 92 47 (trimSpace p))
        · rw [if_pos h4] at h; cases h; rfl
        · rw [if_neg h4] at h
          cases hc : cleanExtractParts (splitSlash (replaceByte 92 47 (trimSpace p)))
            with
          | none => rw [hc] at h; cases h; rfl
          | some parts =>
              rw [hc] at h
              simp only [] at h
              by_cases h5 : parts == ([] : List (List Nat))
              · rw [if_pos h5] at h; cases h; rfl
              · rw [if_neg h5] at h; cases h

/-- C7 counterexample — an entry whose path is empty is rejected by the
extraction-safety normalizer, yet work-item preparation silently skips it
(the whitespace-trim guard runs first), so Extract(RawNames=true)
succeeds instead of failing INVALID_EXTRACT_PATH. -/
theorem extract_unsafe_path_counterexample :
    normalizeExtractEntryPath ([] : List Nat) = .error .invalidExtractPath ∧
    prepareExtractWorkItems [⟨[], 0, 5, 0, 0, 0⟩] = .ok [] := by decide

/-- C7 (amended) — for every entry whose path is non-blank after
whitespace trimming and is rejected by the extraction-safety normalizer,
work-item preparation (and hence Extract with RawNames=true) fails with
INVALID_EXTRACT_PATH; entries with blank paths are silently skipped
instead. -/
theorem extract_unsafe_path_fails (entries : List EntryInfo)
    (h : ∃ e ∈ entries, trimSpace e.path ≠ [] ∧
      ∃ err, normalizeExtractEntryPath e.path = .error err) :
    prepareExtractWorkItems entries = .error .invalidExtractPath := by
  induction entries with
  | nil => obtain ⟨e, hmem, -⟩ := h; cases hmem
  | cons e0 rest ih =>
      obtain ⟨e, hmem, htrim, err, herr⟩ := h
      unfold prepareExtractWorkItems
      by_cases hskip : trimSpace e0.path == ([] : List Nat)
      · rw [if_pos hskip]
        rcases List.mem_cons.mp hmem with rfl | hmem2
        · exact absurd (beq_iff_eq.mp hskip) htrim
        · exact ih ⟨e, hmem2, htrim, err, herr⟩
      · rw [if_neg hskip]
        cases hn : normalizeExtractEntryPath e0.path with
        | error err0 => rw [normalizeExtractEntryPath_error hn]
        | ok normalized =>
            rcases List.mem_cons.mp hmem with rfl | hmem2
            · rw [hn] at herr; cases herr
            · rw [ih ⟨e, hmem2, htrim, err, herr⟩]

/-- Witness for `extract_unsafe_path_fails`: a `..` traversal path. -/
theorem extract_unsafe_path_fails_witness :
    prepareExtractWorkItems [⟨[46, 46], 0, 1, 0, 0, 0⟩] =
      .error .invalidExtractPath :=
  extract_unsafe_path_fails [⟨[46, 46], 0, 1, 0, 0, 0⟩]
    ⟨⟨[46, 46], 0, 1, 0, 0, 0⟩, by decide, by decide, .invalidExtractPath,
      by decide⟩

/-! ## SHA-1 trailer -/

/-- `writeSHA1Trailer` over in-memory bytes, parameterized by the SHA-1
digest function.  If the file already ends in a structurally valid
trailer (byte 0x00 at `size − 21` followed by the digest of everything
before it), the trailer is rewritten in place; otherwise `0x00 ‖ digest`
is appended to the whole file. -/
def writeSHA1Trailer (sha1 : List Nat → List Nat) (file : List Nat) : List Nat :=
  if file.length ≥ 21 && file.getD (file.length - 21) 1 == 0 then
    if sha1 (file.take (file.length - 21)) == file.drop (file.length - 20) then
      file.take (file.length - 21) ++ 0 :: sha1 (file.take (file.length - 21))
    else file ++ 0 :: sha1 file
  else file ++ 0 :: sha1 file

/-- A file of the shape `c ‖ 0x00 ‖ sha1 c` is untouched by the trailer
writer: the candidate check recognizes the valid trailer and rewrites it
in place. -/
theorem writeSHA1Trailer_fixed (sha1 : List Nat → List Nat)
    (hlen : ∀ x, (sha1 x).length = 20) (c : List Nat) :
    writeSHA1Trailer sha1 (c ++ 0 :: sha1 c) = c ++ 0 :: sha1 c := by
  have hl : (c ++ 0 :: sha1 c).length = c.length + 21 := by
    simp [hlen c]
  have htake : (c ++ 0 :: sha1 c).take ((c ++ 0 :: sha1 c).length - 21) = c := by
    rw [hl]
    simpa using List.take_left c (0 :: sha1 c)
  have hdrop : (c ++ 0 :: sha1 c).drop ((c ++ 0 :: sha1 c).length - 20) = sha1 c := by
    rw [hl]
    have : c ++ 0 :: sha1 c = (c ++ [0]) ++ sha1 c := by simp
    rw [this]
    have hlen2 : (c ++ [0]).length = c.length + 1 := by simp
    have : c.length + 21 - 20 = c.length + 1 := by omega
    rw [this, ← hlen2, List.drop_left]
  have hgd : (c ++ 0 :: sha1 c).getD ((c ++ 0 :: sha1 c).length - 21) 1 = 0 := by
    rw [hl]
    have : c.length + 21 - 21 = c.length := by omega
    rw [this]
    rw [List.getD_append_right c (0 :: sha1 c) 1 c.length (Nat.le_refl c.length)]
    simp
  unfold writeSHA1Trailer
  rw [if_pos (by rw [hgd]; simp [hl]), if_pos (by rw [htake, hdrop]; simp)]
  rw [htake]

/-- C8 — `writeSHA1Trailer` is a fixed point: applying it twice yields a
byte-identical file, because the second application recomputes the digest
over the bytes before the candidate trailer, finds it equal to the stored
20 bytes, and rewrites the same trailer in place. -/
theorem writeSHA1Trailer_idem (sha1 : List Nat → List Nat)
    (hlen : ∀ x, (sha1 x).length = 20) (file : List Nat) :
    writeSHA1Trailer sha1 (writeSHA1Trailer sha1 file) =
      writeSHA1Trailer sha1 file := by
  by_cases hb : (decide (file.length ≥ 21)
      && (file.getD (file.length - 21) 1 == 0)) = true
  · by_cases hs : (sha1 (file.take (file.length - 21))
        == file.drop (file.length - 20)) = true
    · have hfst : writeSHA1Trailer sha1 file =
          file.take (file.length - 21) ++
            0 :: sha1 (file.take (file.length - 21)) := by
        unfold writeSHA1Trailer
        rw [if_pos hb, if_pos hs]
      rw [hfst]
      exact writeSHA1Trailer_fixed sha1 hlen _
    · have hfst : writeSHA1Trailer sha1 file = file ++ 0 :: sha1 file := by
        unfold writeSHA1Trailer
        rw [if_pos hb, if_neg (by simpa using hs)]
      rw [hfst]
      exact writeSHA1Trailer_fixed sha1 hlen file
  · have hfst : writeSHA1Trailer sha1 file = file ++ 0 :: sha1 file := by
      unfold writeSHA1Trailer
      rw [if_neg (by simpa using hb)]
    rw [hfst]
    exact writeSHA1Trailer_fixed sha1 hlen file

/-- Witness for `writeSHA1Trailer_idem` with a concrete 20-byte digest
function and file. -/
theorem writeSHA1Trailer_idem_witness :
    writeSHA1Trailer (fun x => List.replicate 19 0 ++ [x.length % 256])
        (writeSHA1Trailer (fun x => List.replicate 19 0 ++ [x.length % 256])
          [1, 2, 3]) =
      writeSHA1Trailer (fun x => List.replicate 19 0 ++ [x.length % 256])
        [1, 2, 3] :=
  writeSHA1Trailer_idem (fun x => List.replicate 19 0 ++ [x.length % 256])
    (fun x => by simp) [1, 2, 3]

/-! ## Signature hash set (filehash and hash3) -/

/-- ASCII bytes of a string literal (all literals used are ASCII). -/
def strBytes (s : String) : List Nat :=
  s.data.map Char.toNat

/-- Index of the last byte satisfying `p`, or −1 (Go `LastIndex`). -/
def lastIndexWhere (p : Nat → Bool) : List Nat → Int
  | [] => -1
  | b :: rest =>
      let r := lastIndexWhere p rest
      if r ≥ 0 then r + 1
      else if p b then 0 else -1

/-- `signFileExtLower`: the lower-cased extension after the last `.` that
follows the last `/` or `\`; empty when absent or trailing. -/
def signFileExtLower (filename : List Nat) : List Nat :=
  let sep := lastIndexWhere (fun b => b == 47 || b == 92) filename
  let dot := lastIndexWhere (fun b => b == 46) filename
  if dot ≤ sep || dot + 1 ≥ (filename.length : Int) then []
  else lowerBytes (filename.drop (dot.toNat + 1))

/-- `isV2SignExcludedExt`. -/
def isV2SignExcludedExt (ext : List Nat) : Bool :=
  [strBytes "paa", strBytes "jpg", strBytes "p3d", strBytes "tga",
    strBytes "rvmat", strBytes "lip", strBytes "ogg", strBytes "wss",
    strBytes "png", strBytes "rtm", strBytes "pac", strBytes "fxy",
    strBytes "wrp"].contains ext

/-- `isDayZV3SignAllowedExt`. -/
def isDayZV3SignAllowedExt (ext : List Nat) : Bool :=
  [strBytes "bikb", strBytes "c", strBytes "ext", strBytes "hpp",
    strBytes "cfg", strBytes "h", strBytes "inc"].contains ext

/-- `isArmaV3SignAllowedExt`. -/
def isArmaV3SignAllowedExt (ext : List Nat) : Bool :=
  [strBytes "sqf", strBytes "inc", strBytes "bikb", strBytes "ext",
    strBytes "fsm", strBytes "sqm", strBytes "hpp", strBytes "cfg",
    strBytes "sqs", strBytes "h", strBytes "cpp"].contains ext

/-- `shouldHashFileForSign`: the per-version / per-game extension
policy, failing on unsupported combinations. -/
def shouldHashFileForSign (version : Nat) (game : List Nat)
    (filename : List Nat) : Except Err Bool :=
  let ext := signFileExtLower filename
  let game2 := lowerBytes game
  if version == 2 then .ok (!isV2SignExcludedExt ext)
  else if version == 3 then
    if game2 == strBytes "dayz" then .ok (isDayZV3SignAllowedExt ext)
    else if game2 == strBytes "arma" then .ok (isArmaV3SignAllowedExt ext)
    else .error .unsupportedGameTypeV3
  else .error .unsupportedSignVersion

/-- One packed payload slice `[offset, offset+dataSize)`; reading past
EOF fails as the chunked `ReadAt` loop does. -/
def readPackedSlice (file : List Nat) (e : EntryInfo) : Except Err (List Nat) :=
  if e.offset + e.dataSize ≤ file.length then
    .ok ((file.drop e.offset).take e.dataSize)
  else .error .eofError

/-- The entry loop of `computeSignFileHashFromReaderAt`: collect the
hashed byte stream in stored order and whether any entry contributed. -/
def signFileHashGo (file : List Nat) (version : Nat) (game : List Nat) :
    List EntryInfo → Except Err (List Nat × Bool)
  | [] => .ok ([], false)
  | e :: rest =>
      if e.path == ([] : List Nat) || e.dataSize == 0 then
        signFileHashGo file version game rest
      else do
        let keep ← shouldHashFileForSign version game e.path
        if !keep then signFileHashGo file version game rest
        else do
          let chunk ← readPackedSlice file e
          let (tail, _) ← signFileHashGo file version game rest
          pure (chunk ++ tail, true)

/-- `computeSignFileHashFromReaderAt`: SHA-1 over the selected packed
payload bytes in stored order, or over the `"nothing"` / `"gnihton"`
literal when no entry contributed. -/
def computeSignFileHash (sha1 : List Nat → List Nat) (file : List Nat)
    (entries : List EntryInfo) (version : Nat) (game : List Nat) :
    Except Err (List Nat) := do
  let (stream, hashedAny) ← signFileHashGo file version game entries
  if hashedAny then pure (sha1 stream)
  else if version == 2 then pure (sha1 (strBytes "nothing"))
  else pure (sha1 (strBytes "gnihton"))

/-- `writeSignPrefix`: the logical path fragment fed to hash2/hash3 —
nothing when empty, otherwise the value with a guaranteed trailing
backslash. -/
def signPfxFragment (pfx : List Nat) : List Nat :=
  if pfx == ([] : List Nat) then []
  else if pfx.getLast? == some 92 then pfx
  else pfx ++ [92]

/-- `computeSignHash3`: SHA-1 of filehash ‖ namehash ‖ prefix fragment. -/
def computeSignHash3 (sha1 : List Nat → List Nat)
    (fileHash nameHash pfx : List Nat) : List Nat :=
  sha1 (fileHash ++ nameHash ++ signPfxFragment pfx)

/-- Modelled from the claim's words: the filehash extension policy as a
total predicate on the supported version/game combinations. -/
def specSignIncluded (version : Nat) (game : List Nat) (path : List Nat) : Bool :=
  if version == 2 then !isV2SignExcludedExt (signFileExtLower path)
  else if lowerBytes game == strBytes "dayz" then
    isDayZV3SignAllowedExt (signFileExtLower path)
  else isArmaV3SignAllowedExt (signFileExtLower path)

/-- Modelled from the claim's words: the byte stream whose SHA-1 is the
filehash — entries in stored order, those with empty path or zero size
skipped, the policy applied, packed on-disk slices concatenated, and the
version literal when nothing contributed. -/
def specSignFileHashInput (file : List Nat) (entries : List EntryInfo)
    (version : Nat) (game : List Nat) : List Nat :=
  let selected := entries.filter fun e =>
    !(e.path == ([] : List Nat)) && !(e.dataSize == 0) &&
      specSignIncluded version game e.path
  if selected.isEmpty then
    if version == 2 then strBytes "nothing" else strBytes "gnihton"
  else (selected.map fun e => (file.drop e.offset).take e.dataSize).flatten

theorem shouldHashFileForSign_ok (version : Nat) (game : List Nat)
    (path : List Nat)
    (hv : version = 2 ∨ (version = 3 ∧ (lowerBytes game = strBytes "dayz" ∨
      lowerBytes game = strBytes "arma"))) :
    shouldHashFileForSign version game path =
      .ok (specSignIncluded version game path) := by
  rcases hv with rfl | ⟨rfl, hg | hg⟩
  · simp [shouldHashFileForSign, specSignIncluded]
  · simp [shouldHashFileForSign, specSignIncluded, hg, strBytes]
  · simp [shouldHashFileForSign, specSignIncluded, hg, strBytes]

theorem signFileHashGo_spec (file : List Nat)
    (version : Nat) (game : List Nat) (entries : List EntryInfo)
    (hv : version = 2 ∨ (version = 3 ∧ (lowerBytes game = strBytes "dayz" ∨
      lowerBytes game = strBytes "arma")))
    (hbounds : ∀ e ∈ entries, e.offset + e.dataSize ≤ file.length) :
    signFileHashGo file version game entries =
      .ok (((entries.filter fun e =>
          !(e.path == ([] : List Nat)) && !(e.dataSize == 0) &&
            specSignIncluded version game e.path).map
          fun e => (file.drop e.offset).take e.dataSize).flatten,
        !(entries.filter fun e =>
          !(e.path == ([] : List Nat)) && !(e.dataSize == 0) &&
            specSignIncluded version game e.path).isEmpty) := by
  induction entries with
  | nil => simp [signFileHashGo]
  | cons e rest ih =>
      have hbr : ∀ x ∈ rest, x.offset + x.dataSize ≤ file.length :=
        fun x hx => hbounds x (List.mem_cons_of_mem e hx)
      have ihr := ih hbr
      unfold signFileHashGo
      by_cases hskip : (e.path == ([] : List Nat) || e.dataSize == 0) = true
      · rw [if_pos hskip, ihr]
        have hfe : (!(e.path == ([] : List Nat)) && !(e.dataSize == 0) &&
            specSignIncluded version game e.path) = false := by
          rcases Bool.or_eq_true_iff.mp hskip with hh | hh <;> simp [hh]
        rw [List.filter_cons_of_neg (p := fun e => !(e.path == ([] : List Nat)) && !(e.dataSize == 0) &&
            specSignIncluded version game e.path) (a := e)
          (by change ¬((!(e.path == ([] : List Nat)) && !(e.dataSize == 0) && specSignIncluded version game e.path) = true)
              rw [hfe]
              exact Bool.false_ne_true)]
      · rw [if_neg hskip]
        rw [shouldHashFileForSign_ok version game e.path hv]
        simp only [Except.bind, bind]
        have hne : (!(e.path == ([] : List Nat)) && !(e.dataSize == 0)) = true := by
          rcases hsp : (e.path == ([] : List Nat)) with _ | _ <;>
            rcases hds : (e.dataSize == 0) with _ | _ <;>
              simp [hsp, hds] at hskip ⊢
        by_cases hpol : specSignIncluded version game e.path = true
        · simp only [hpol, Bool.not_true, Bool.false_eq_true, if_false, reduceIte]
          have hrd : readPackedSlice file e =
              .ok ((file.drop e.offset).take e.dataSize) := by
            simp [readPackedSlice, hbounds e (List.mem_cons_self e rest)]
          rw [hrd]
          simp only [Except.bind, bind, ihr, pure, Except.pure]
          have hfe : (!(e.path == ([] : List Nat)) && !(e.dataSize == 0) &&
              specSignIncluded version game e.path) = true := by
            simp only [Bool.and_eq_true] at hne ⊢
            exact ⟨hne, hpol⟩
          rw [List.filter_cons_of_pos (p := fun e => !(e.path == ([] : List Nat)) && !(e.dataSize == 0) &&
            specSignIncluded version game e.path) (a := e)
            (show (fun e => !(e.path == ([] : List Nat)) && !(e.dataSize == 0) &&
            specSignIncluded version game e.path) e from hfe)]
          simp
        · have hpol2 : specSignIncluded version game e.path = false := by
            simpa using hpol
          simp only [hpol2, Bool.not_false, if_true, reduceIte]
          rw [ihr]
          have hfe : (!(e.path == ([] : List Nat)) && !(e.dataSize == 0) &&
              specSignIncluded version game e.path) = false := by
            simp [hpol2]
          rw [List.filter_cons_of_neg (p := fun e => !(e.path == ([] : List Nat)) && !(e.dataSize == 0) &&
            specSignIncluded version game e.path) (a := e)
            (by change ¬((!(e.path == ([] : List Nat)) && !(e.dataSize == 0) && specSignIncluded version game e.path) = true)
                rw [hfe]
                exact Bool.false_ne_true)]

/-- C5 — the filehash digests the packed on-disk bytes
`[offset, offset+dataSize)` of the entries in stored order (not
re-sorted), skipping empty paths and zero sizes, applying the
version/game extension policy, and digesting the literal `"nothing"`
(v2) / `"gnihton"` (v3) when no entry contributed; and hash3 is the
SHA-1 of filehash ‖ namehash ‖ prefix-with-trailing-backslash, the empty
prefix contributing nothing. -/
theorem signFileHash_spec (sha1 : List Nat → List Nat) (file : List Nat)
    (entries : List EntryInfo) (version : Nat) (game : List Nat)
    (hv : version = 2 ∨ (version = 3 ∧ (lowerBytes game = strBytes "dayz" ∨
      lowerBytes game = strBytes "arma")))
    (hbounds : ∀ e ∈ entries, e.offset + e.dataSize ≤ file.length) :
    computeSignFileHash sha1 file entries version game =
      .ok (sha1 (specSignFileHashInput file entries version game)) ∧
    (∀ fh nh pfx, computeSignHash3 sha1 fh nh pfx =
      sha1 (fh ++ nh ++
        (if pfx = [] then []
         else if pfx.getLast? = some 92 then pfx else pfx ++ [92]))) := by
  constructor
  · unfold computeSignFileHash
    rw [signFileHashGo_spec file version game entries hv hbounds]
    simp only [Except.bind, bind]
    by_cases hemp : (entries.filter fun e =>
        !(e.path == ([] : List Nat)) && !(e.dataSize == 0) &&
          specSignIncluded version game e.path).isEmpty
    · rw [hemp]
      simp only [Bool.not_true, Bool.false_eq_true, if_false, reduceIte]
      unfold specSignFileHashInput
      rw [if_pos hemp]
      rcases hv with rfl | ⟨rfl, -⟩
      · simp [pure, Except.pure]
      · simp [pure, Except.pure]
    · have hemp2 : (entries.filter fun e =>
          !(e.path == ([] : List Nat)) && !(e.dataSize == 0) &&
            specSignIncluded version game e.path).isEmpty = false := by
        simpa using hemp
      rw [hemp2]
      simp only [Bool.not_false, if_true, reduceIte]
      unfold specSignFileHashInput
      rw [if_neg hemp]
      simp [pure, Except.pure]
  · intro fh nh pfx
    unfold computeSignHash3 signPfxFragment
    by_cases h1 : pfx = []
    · simp [h1]
    · rw [if_neg (by simpa using h1), if_neg h1]
      by_cases h2 : pfx.getLast? = some 92
      · rw [if_pos (by simpa using h2), if_pos h2]
      · rw [if_neg (by simpa using h2), if_neg h2]

/-- Witness for `signFileHash_spec` (filehash part) on a 10-byte file
with one included, one empty-path and one v2-excluded entry. -/
theorem signFileHash_spec_witness :
    computeSignFileHash (fun l => l.take 20) [0, 1, 2, 3, 4, 5, 6, 7, 8, 9]
        [⟨[97, 46, 99], 2, 3, 0, 0, 0⟩, ⟨[], 0, 3, 0, 0, 0⟩,
          ⟨[98, 46, 112, 97, 97], 5, 2, 0, 0, 0⟩] 2 [] =
      .ok ((fun l => l.take 20)
        (specSignFileHashInput [0, 1, 2, 3, 4, 5, 6, 7, 8, 9]
          [⟨[97, 46, 99], 2, 3, 0, 0, 0⟩, ⟨[], 0, 3, 0, 0, 0⟩,
            ⟨[98, 46, 112, 97, 97], 5, 2, 0, 0, 0⟩] 2 [])) :=
  (signFileHash_spec (fun l => l.take 20) [0, 1, 2, 3, 4, 5, 6, 7, 8, 9]
    [⟨[97, 46, 99], 2, 3, 0, 0, 0⟩, ⟨[], 0, 3, 0, 0, 0⟩,
      ⟨[98, 46, 112, 97, 97], 5, 2, 0, 0, 0⟩] 2 []
    (Or.inl rfl) (by decide)).1

/-! ## Editor commit protocol over a file-system model -/

/-- A flat file system: an association list from path to file bytes. -/
def FS : Type := List (String × List Nat)

/-- Content of the file at `p`, when present. -/
def fsGet (fs : FS) (p : String) : Option (List Nat) :=
  (fs.find? fun kv => kv.1 == p).map (·.2)

/-- `os.Remove` (total in the model; a missing file is a no-op as in
`removeIfExists`). -/
def fsRemove (fs : FS) (p : String) : FS :=
  fs.filter fun kv => !(kv.1 == p)

/-- Create or overwrite the file at `p`. -/
def fsSet (fs : FS) (p : String) (v : List Nat) : FS :=
  (p, v) :: fsRemove fs p

/-- `os.Rename`: fails when the source is missing, atomically replaces
any destination otherwise. -/
def fsRename (fs : FS) (src dst : String) : Except Err FS :=
  match fsGet fs src with
  | none => .error .osError
  | some v => .ok (fsSet (fsRemove fs src) dst v)

/-- `removeIfExists`. -/
def removeIfExists (fs : FS) (p : String) : FS :=
  fsRemove fs p

/-- `renameIfExists`: stat the source, remove the destination, rename. -/
def renameIfExists (fs : FS) (src dst : String) : FS :=
  match fsGet fs src with
  | none => fs
  | some v => fsSet (fsRemove fs src) dst v

/-- The descending rename loop of `prepareBackupSlot`: for `i` from `n`
down to 1, rename `<bp>.i` to `<bp>.(i+1)`. -/
def shiftBackups (bp : String) (fs : FS) : Nat → FS
  | 0 => fs
  | i + 1 =>
      shiftBackups bp
        (renameIfExists fs (bp ++ "." ++ toString (i + 1))
          (bp ++ "." ++ toString (i + 2))) i

/-- `prepareBackupSlot`: for keep ≤ 1 remove the `.bak`; otherwise drop
the oldest generation, shift `.bak.i` up and move `.bak` to `.bak.1`.
(Negative keep values are clamped to 0 by `applyDefaults` and by the
function itself, so the model takes a Nat.) -/
def prepareBackupSlot (fs : FS) (bp : String) (keep : Nat) : FS :=
  match keep with
  | 0 => removeIfExists fs bp
  | 1 => removeIfExists fs bp
  | n + 2 =>
      let fs1 := removeIfExists fs (bp ++ "." ++ toString (n + 1))
      let fs2 := shiftBackups bp fs1 n
      renameIfExists fs2 bp (bp ++ ".1")

/-- `rollbackFromBackup`: best-effort remove of the partial destination,
then rename the backup back over the original path. -/
def rollbackFromBackup (fs : FS) (path bp : String) : Except Err FS :=
  fsRename (fsRemove fs path) bp path

/-- `Editor.Commit` with the rewrite stage abstracted: `inner` stands
for `commitFromBackup` (parse the backup, build and write the plan,
trailer), returning the file system it leaves behind and an error when
it fails.  The protocol: rotate backups, move the archive to `.bak`, run
the rewrite, roll back from the backup on failure, drop the backup on
success when keep = 0. -/
def editorCommit (fs : FS) (path : String) (keep : Nat)
    (inner : FS → FS × Option Err) : FS × Option Err :=
  match fsRename (prepareBackupSlot fs (path ++ ".bak") keep) path (path ++ ".bak") with
  | .error e => (prepareBackupSlot fs (path ++ ".bak") keep, some e)
  | .ok fs2 =>
      match inner fs2 with
      | (fs3, some e) =>
          match rollbackFromBackup fs3 path (path ++ ".bak") with
          | .ok fs4 => (fs4, some e)
          | .error _ => (fs3, some .compositeError)
      | (fs3, none) =>
          if keep == 0 then (removeIfExists fs3 (path ++ ".bak"), none)
          else (fs3, none)

/-! ### File-system lemmas -/

theorem fsGet_fsRemove_ne {fs : FS} {p q : String} (h : q ≠ p) :
    fsGet (fsRemove fs p) q = fsGet fs q := by
  induction fs with
  | nil => rfl
  | cons kv rest ih =>
      unfold fsRemove fsGet at ih ⊢
      by_cases hp : kv.1 = p
      · rw [List.filter_cons_of_neg (p := fun kv => !(kv.1 == p)) (a := kv)
          (l := rest) (by simp [hp])]
        rw [List.find?_cons_of_neg (p := fun kv => kv.1 == q) (a := kv) rest
          (by simp [hp]; exact fun hh => h hh.symm)]
        exact ih
      · rw [List.filter_cons_of_pos (p := fun kv => !(kv.1 == p)) (a := kv)
          (l := rest) (by simp [hp])]
        simp only [List.find?_cons]
        cases hkq : kv.1 == q with
        | true => rfl
        | false => exact ih

theorem fsGet_fsSet_self (fs : FS) (p : String) (v : List Nat) :
    fsGet (fsSet fs p v) p = some v := by
  unfold fsGet fsSet
  rw [List.find?_cons_of_pos (p := fun kv => kv.1 == p) (a := (p, v))
    (fsRemove fs p) (by simp)]
  rfl

theorem fsGet_fsSet_ne {fs : FS} {p q : String} (v : List Nat) (h : q ≠ p) :
    fsGet (fsSet fs p v) q = fsGet fs q := by
  unfold fsSet
  show fsGet ((p, v) :: fsRemove fs p) q = fsGet fs q
  unfold fsGet
  rw [List.find?_cons_of_neg (p := fun kv => kv.1 == q) (a := (p, v))
    (fsRemove fs p) (by simp; exact fun hh => h hh.symm)]
  exact fsGet_fsRemove_ne h

theorem fsGet_renameIfExists_ne {fs : FS} {s d q : String} (h1 : q ≠ s)
    (h2 : q ≠ d) : fsGet (renameIfExists fs s d) q = fsGet fs q := by
  unfold renameIfExists
  cases fsGet fs s with
  | none => rfl
  | some v => rw [fsGet_fsSet_ne v h2, fsGet_fsRemove_ne h1]

theorem ne_of_length_lt {q s : String} (h : q.length < s.length) : q ≠ s := by
  intro he
  rw [he] at h
  exact Nat.lt_irrefl _ h

theorem dot_len : (".").length = 1 := rfl

theorem dot1_len : (".1").length = 2 := rfl

theorem bak_len : (".bak").length = 4 := rfl

theorem fsGet_shiftBackups {bp q : String} (hq : q.length < bp.length + 1) :
    ∀ (n : Nat) (fs : FS), fsGet (shiftBackups bp fs n) q = fsGet fs q := by
  intro n
  induction n with
  | zero => intro fs; rfl
  | succ i ih =>
      intro fs
      unfold shiftBackups
      rw [ih]
      have hlen : ∀ t : String, q ≠ bp ++ "." ++ t := by
        intro t
        apply ne_of_length_lt
        have : (bp ++ "." ++ t).length = bp.length + 1 + t.length := by
          rw [String.length_append, String.length_append, dot_len]
        omega
      exact fsGet_renameIfExists_ne (hlen _) (hlen _)

theorem fsGet_prepareBackupSlot {fs : FS} {bp q : String} (keep : Nat)
    (hq : q.length < bp.length) :
    fsGet (prepareBackupSlot fs bp keep) q = fsGet fs q := by
  have hqb : q ≠ bp := ne_of_length_lt hq
  have hlen : ∀ t : String, q ≠ bp ++ "." ++ t := by
    intro t
    apply ne_of_length_lt
    have : (bp ++ "." ++ t).length = bp.length + 1 + t.length := by
      rw [String.length_append, String.length_append, dot_len]
    omega
  match keep with
  | 0 => exact fsGet_fsRemove_ne hqb
  | 1 => exact fsGet_fsRemove_ne hqb
  | (n + 2) =>
      have h1 : q ≠ bp ++ ".1" := by
        apply ne_of_length_lt
        have : (bp ++ ".1").length = bp.length + 2 := by
          rw [String.length_append, dot1_len]
        omega
      show fsGet (renameIfExists (shiftBackups bp
          (removeIfExists fs (bp ++ "." ++ toString (n + 1))) n) bp (bp ++ ".1")) q
        = fsGet fs q
      rw [fsGet_renameIfExists_ne hqb h1, fsGet_shiftBackups (by omega)]
      exact fsGet_fsRemove_ne (hlen _)

theorem path_ne_bak (path : String) : path ≠ path ++ ".bak" := by
  apply ne_of_length_lt
  have : (path ++ ".bak").length = path.length + 4 := by
    rw [String.length_append, bak_len]
  omega

/-- C2 — when the rewrite stage of `Editor.Commit` fails (any staged
reason: Add on an existing path, Replace on a missing path, or an
input/write error during the rewrite), Commit reports the failure and
the file at the original archive path holds the pre-commit content,
byte-for-byte.  The rewrite stage is abstracted as any function that
does not touch the backup file. -/
theorem editorCommit_rollback (fs : FS) (path : String) (keep : Nat)
    (inner : FS → FS × Option Err) (content : List Nat)
    (hfile : fsGet fs path = some content)
    (hframe : ∀ g, fsGet (inner g).1 (path ++ ".bak") = fsGet g (path ++ ".bak"))
    (hfail : ∀ g, (inner g).2.isSome) :
    (editorCommit fs path keep inner).2.isSome = true ∧
    fsGet (editorCommit fs path keep inner).1 path = some content := by
  have hbp : path ≠ path ++ ".bak" := path_ne_bak path
  have hblen : path.length < (path ++ ".bak").length := by
    have : (path ++ ".bak").length = path.length + 4 := by
      rw [String.length_append, bak_len]
    omega
  have hprep : fsGet (prepareBackupSlot fs (path ++ ".bak") keep) path
      = some content := by
    rw [fsGet_prepareBackupSlot keep hblen]
    exact hfile
  have hren : fsRename (prepareBackupSlot fs (path ++ ".bak") keep) path
      (path ++ ".bak") =
      .ok (fsSet (fsRemove (prepareBackupSlot fs (path ++ ".bak") keep) path)
        (path ++ ".bak") content) := by
    unfold fsRename
    rw [hprep]
  simp only [editorCommit, hren]
  cases hinner : inner (fsSet
      (fsRemove (prepareBackupSlot fs (path ++ ".bak") keep) path)
      (path ++ ".bak") content) with
  | mk fs3 res =>
      have hres := hfail (fsSet
        (fsRemove (prepareBackupSlot fs (path ++ ".bak") keep) path)
        (path ++ ".bak") content)
      rw [hinner] at hres
      cases res with
      | none => simp at hres
      | some e =>
          have hbak : fsGet fs3 (path ++ ".bak") = some content := by
            have hfr := hframe (fsSet
              (fsRemove (prepareBackupSlot fs (path ++ ".bak") keep) path)
              (path ++ ".bak") content)
            rw [hinner] at hfr
            rw [hfr, fsGet_fsSet_self]
          have hroll : rollbackFromBackup fs3 path (path ++ ".bak") =
              .ok (fsSet (fsRemove (fsRemove fs3 path) (path ++ ".bak")) path
                content) := by
            unfold rollbackFromBackup fsRename
            rw [fsGet_fsRemove_ne (fun hh => hbp hh.symm), hbak]
          simp only [hroll]
          exact ⟨rfl, fsGet_fsSet_self _ _ _⟩

/-- Witness for `editorCommit_rollback`: a one-file system and a rewrite
stage that writes garbage to the archive path and fails. -/
theorem editorCommit_rollback_witness :
    ((editorCommit [("a.pbo", [1, 2, 3])] "a.pbo" 1
        (fun g => (fsSet g "a.pbo" [9], some .entryNotFound))).2.isSome = true) ∧
    fsGet (editorCommit [("a.pbo", [1, 2, 3])] "a.pbo" 1
        (fun g => (fsSet g "a.pbo" [9], some .entryNotFound))).1 "a.pbo" =
      some [1, 2, 3] :=
  editorCommit_rollback [("a.pbo", [1, 2, 3])] "a.pbo" 1
    (fun g => (fsSet g "a.pbo" [9], some .entryNotFound)) [1, 2, 3]
    (by decide)
    (fun g => fsGet_fsSet_ne [9] (by decide))
    (fun g => rfl)

/-! ## The pack writer (`Pack`, `preparePackRewritePlan`, `rewriteArchive`) -/

/-- The first loop of `preparePackRewritePlan`: canonicalize every input
path with `normalizeArchiveEntryPath`, failing on empty results. -/
def normalizeInputs : List Input → Except Err (List Input)
  | [] => .ok []
  | inp :: rest => do
      let c ← normalizeArchiveEntryPath inp.path
      let tail ← normalizeInputs rest
      pure ({ inp with path := c } :: tail)

/-- Insertion into a path-sorted input list. -/
def insertByPath (inp : Input) : List Input → List Input
  | [] => [inp]
  | x :: xs =>
      if bytesLt inp.path x.path then inp :: x :: xs else x :: insertByPath inp xs

/-- The `sort.Slice` call of `preparePackRewritePlan` with `less` the
byte-wise `<` on normalized paths.  `sort.Slice` fixes the ordering, not
the algorithm (ties may land in any order); insertion sort realizes the
same contract, and tied (equal) paths are rejected as duplicates by the
validation that follows immediately. -/
def sortByPath : List Input → List Input
  | [] => []
  | x :: xs => insertByPath x (sortByPath xs)

/-- `validateUniqueEntryPaths`: walk the inputs against the set of
already-seen lower-cased paths. -/
def validateUniqueGo (seen : List (List Nat)) : List Input → Except Err Unit
  | [] => .ok ()
  | inp :: rest =>
      if seen.contains (lowerBytes inp.path) then .error .duplicateEntryPath
      else validateUniqueGo (lowerBytes inp.path :: seen) rest

/-- `preparePackRewritePlan`: normalize, sort, check case-insensitive
uniqueness and the 4 GiB positive-size-hint estimate.  All plan items of
`Pack` are input-backed, so the plan is the processed input list. -/
def preparePackRewritePlan (inputs : List Input) : Except Err (List Input) := do
  let normalized ← normalizeInputs inputs
  let sorted := sortByPath normalized
  let _ ← validateUniqueGo [] sorted
  let total := (sorted.map fun inp =>
    if inp.sizeHint > 0 then inp.sizeHint else 0).sum
  if total > (maxPBOData : Int) then .error .sizeOverflow
  else pure sorted

/-- The 21 fixed header bytes: one zero byte, "Vers" as little-endian
u32, sixteen zero field bytes. -/
def fixedHeaderBytes : List Nat :=
  [0, 115, 114, 101, 86] ++ List.replicate 16 0

/-- One written header pair: key, NUL, value, NUL — where values of keys
that case-fold to `prefix` ([112, 114, 101, 102, 105, 120]) are first
passed through `NormalizePrefixHeader`. -/
def headerPairBytes (kv : List Nat × List Nat) : List Nat :=
  let v := if lowerBytes (trimSpace kv.1) == [112, 114, 101, 102, 105, 120]
    then normPrefixHeader kv.2 else kv.2
  kv.1 ++ 0 :: v ++ [0]

/-- One final index record: NUL-terminated name, then mime, original
size, a zero offset field, timestamp and data size as little-endian u32.
(The writer first emits 20 placeholder bytes here and patches them to
exactly these values in the final seek-and-patch loop of
`rewriteArchiveDetailed`; the model keeps the resulting bytes.) -/
def indexRecord (w : Written) : List Nat :=
  w.path ++ 0 :: (u32le w.mime ++ u32le w.originalSize ++ u32le 0 ++
    u32le w.timestamp ++ u32le w.dataSize)

/-- The payload loop of `rewriteArchiveDetailed` over input-backed plan
items: each payload is written at the running offset and the offset
advances by the written data size. -/
def rewriteLoop (codec : Codec) (o : PackOptions) (m : CompressMatcher) :
    List Input → Nat → Except Err (List (Written × List Nat))
  | [], _ => .ok []
  | inp :: rest, cur => do
      let wp ← writeRewriteInputPayload codec o m inp cur
      let tail ← rewriteLoop codec o m rest (cur + wp.1.dataSize)
      pure (wp :: tail)

/-- Index section size: `len(path) + 1 + 20` bytes per entry plus the
21-byte all-zero terminator record. -/
def indexSizeOf (plan : List Input) : Nat :=
  (plan.map fun inp => inp.path.length + 21).sum + 21

/-- The bytes `rewriteArchiveDetailed` leaves in the output: fixed
header, header pairs with their terminator, the patched index with the
all-zero terminator record, then the payloads. -/
def buildFile (hdrs : List (List Nat × List Nat))
    (ws : List (Written × List Nat)) : List Nat :=
  fixedHeaderBytes ++ (hdrs.map headerPairBytes).flatten ++ 0 ::
    ((ws.map fun wp => indexRecord wp.1).flatten ++ 0 :: List.replicate 20 0 ++
      (ws.map fun wp => wp.2).flatten)

/-- `rewriteArchiveDetailed` for an input-backed plan over an in-memory
writer: option defaults, the 4 GiB data-start guard (`currentOffset` is
the u32 cast of the data-start seek position), the payload loop and the
final bytes. -/
def rewriteArchiveBytes (codec : Codec) (o : PackOptions) (plan : List Input) :
    Except Err (List Nat) :=
  let od := o.applyDefaults
  let hb := (od.hdrs.map headerPairBytes).flatten
  let dataStart := headerSizeC + hb.length + 1 + indexSizeOf plan
  if dataStart > maxPBOData then .error .sizeOverflow
  else do
    let ws ← rewriteLoop codec od od.compress plan (dataStart % (u32Max + 1))
    pure (buildFile od.hdrs ws)

/-- `Pack` over an in-memory writer: reject empty inputs, apply option
defaults, build the rewrite plan and run the rewrite core. -/
def packFileBytes (codec : Codec) (inputs : List Input) (o : PackOptions) :
    Except Err (List Nat) :=
  if inputs.isEmpty then .error .emptyInputs
  else do
    let plan ← preparePackRewritePlan inputs
    rewriteArchiveBytes codec o.applyDefaults plan

/-! ## Entry lookup and reading (`findEntryByName`, `ReadEntry`) -/

/-- `Reader.findEntryByName`: the first entry whose `NormalizePath` form
equals the lookup name's `NormalizePath` form. -/
def findEntryByName (entries : List EntryInfo) (name : List Nat) :
    Option EntryInfo :=
  entries.find? fun e => normPath e.path == normPath name

/-- `ReadEntry` (via `OpenEntry` and `openEntryByInfo`): locate the
entry, slice the packed bytes `[offset, offset + dataSize)` of the
source, and LZSS-decompress them to `originalSize` bytes when the entry
is compressed. -/
def readEntry (codec : Codec) (file : List Nat) (p : ParsedPBO)
    (name : List Nat) : Except Err (List Nat) :=
  match findEntryByName p.entries name with
  | none => .error .entryNotFound
  | some info =>
      let packed := (file.drop info.offset).take info.dataSize
      if info.isCompressedB then
        match codec.decompress packed info.originalSize with
        | none => .error .decompressFailed
        | some out => .ok out
      else .ok packed

/-! ## C1 counterexample: a NormalizePath collision between distinct
canonical paths -/

/-- Any codec works for the collision archive: both entries are raw. -/
def cxCodec : Codec :=
  { compress := fun l => l, decompress := fun l _ => some l }

/-- Two inputs whose canonical archive paths are distinct (even
case-insensitively) yet `NormalizePath`-equal: `"/ a/b"` canonicalizes to
`" a\b"` and `"a/b"` to `"a\b"`, and `NormalizePath` trims the leading
space of the former. -/
def cxInputs : List Input :=
  [{ path := [47, 32, 97, 47, 98], data := [1] },
   { path := [97, 47, 98], data := [2] }]

def cxFile : List Nat := (packFileBytes cxCodec cxInputs {}).toOption.getD []

def cxParsed : ParsedPBO := (parsePBO cxFile {}).toOption.getD ⟨[], [], 0, 0, false⟩

/-- C1 — counterexample.  The canonical paths `" a\b"` and `"a\b"` are
distinct under case-insensitive comparison, so Pack accepts the input
set; yet ReadEntry on the canonical path `"a\b"` of the second input
returns the first input's bytes `[1]`, not the packed `[2]`: lookup
compares `NormalizePath` forms, which collide. -/
theorem pack_read_collision_counterexample :
    (normalizeArchiveEntryPath [47, 32, 97, 47, 98] = .ok [32, 97, 92, 98] ∧
     normalizeArchiveEntryPath [97, 47, 98] = .ok [97, 92, 98] ∧
     lowerBytes [32, 97, 92, 98] ≠ lowerBytes [97, 92, 98]) ∧
    packFileBytes cxCodec cxInputs {} = .ok cxFile ∧
    parsePBO cxFile {} = .ok cxParsed ∧
    readEntry cxCodec cxFile cxParsed [97, 92, 98] = .ok [1] ∧
    readEntry cxCodec cxFile cxParsed [97, 92, 98] ≠ .ok [2] := by
  decide

/-! ## Parse-of-encode lemmas -/

theorem splitAtNul_append (s r : List Nat) (h : s.contains 0 = false) :
    splitAtNul (s ++ 0 :: r) = some (s, r) := by
  induction s with
  | nil => simp [splitAtNul]
  | cons b bs ih =>
      have hb : (b == 0) = false := by
        rw [List.contains_cons] at h
        cases hbe : (0 : Nat) == b with
        | true =>
            rw [hbe] at h
            simp at h
        | false =>
            have h0 : (0 : Nat) ≠ b := by simpa using hbe
            exact beq_eq_false_iff_ne.mpr fun hq => h0 hq.symm
      have hbs : bs.contains 0 = false := by
        rw [List.contains_cons] at h
        cases hbe : bs.contains 0 with
        | true => rw [hbe] at h; simp at h
        | false => rfl
      simp [List.cons_append, splitAtNul, hb, ih hbs]

theorem indexRecord_length (w : Written) :
    (indexRecord w).length = w.path.length + 21 := by
  simp [indexRecord, u32le]

/-- The raw (pre-resolution) entry a written record parses back to: the
stored offset field is written as zero. -/
def rawEntryOf (w : Written) : EntryInfo :=
  ⟨w.path, 0, w.dataSize, w.originalSize, w.timestamp, w.mime⟩

/-- The final entry metadata of the written archive: sequential offsets
from the running position. -/
def entriesOfGo : List (Written × List Nat) → Nat → List EntryInfo
  | [], _ => []
  | wp :: rest, cur =>
      ⟨wp.1.path, cur, wp.1.dataSize, wp.1.originalSize, wp.1.timestamp, wp.1.mime⟩ ::
        entriesOfGo rest (cur + wp.1.dataSize)

/-- Total written payload size. -/
def sumDs (ws : List (Written × List Nat)) : Nat :=
  (ws.map fun wp => wp.1.dataSize).sum

theorem parseHeaderKVs_nil (fuel off : Nat) (rest : List Nat) :
    parseHeaderKVs (fuel + 1) (0 :: rest) off = .ok ([], rest, off + 1) := by
  simp [parseHeaderKVs, splitAtNul]

theorem parseEntriesLoop_term (fuel off : Nat) (tail : List Nat) :
    parseEntriesLoop (fuel + 1) (0 :: (List.replicate 20 0 ++ tail)) off
      = .ok ([], off + 21) := by
  show parseEntriesLoop (fuel + 1)
    (0 :: (0 :: 0 :: 0 :: 0 :: 0 :: 0 :: 0 :: 0 :: 0 :: 0 :: 0 :: 0 :: 0 :: 0 ::
      0 :: 0 :: 0 :: 0 :: 0 :: 0 :: tail)) off = .ok ([], off + 21)
  simp [parseEntriesLoop, splitAtNul, readU32]

theorem entriesOfGo_map_path : ∀ (ws : List (Written × List Nat)) (cur : Nat),
    (entriesOfGo ws cur).map (fun e => e.path) = ws.map (fun wp => wp.1.path) := by
  intro ws
  induction ws with
  | nil => intro cur; rfl
  | cons wp rest ih => intro cur; simp [entriesOfGo, ih]

theorem assignSeqGo_encode : ∀ (ws : List (Written × List Nat)) (cur : Nat),
    cur + sumDs ws ≤ u32Max →
    assignSequentialOffsets.go (ws.map fun wp => rawEntryOf wp.1) cur
      = .ok (entriesOfGo ws cur) := by
  intro ws
  induction ws with
  | nil => intro cur h; rfl
  | cons wp rest ih =>
      intro cur h
      have hsum : cur + wp.1.dataSize + sumDs rest ≤ u32Max := by
        simp [sumDs] at h ⊢
        omega
      have hds : ¬ wp.1.dataSize > u32Max - cur := by omega
      have hproj : (rawEntryOf wp.1).dataSize = wp.1.dataSize := rfl
      simp only [List.map_cons, assignSequentialOffsets.go, hproj, if_neg hds,
        ih (cur + wp.1.dataSize) hsum, Except.bind, bind, pure, Except.pure,
        entriesOfGo] <;> rfl

theorem assignSequentialOffsets_encode (ws : List (Written × List Nat))
    (d : Nat) (h : d + sumDs ws ≤ u32Max) :
    assignSequentialOffsets (ws.map fun wp => rawEntryOf wp.1) d
      = .ok (entriesOfGo ws d) := by
  have hd : ¬ d > u32Max := by omega
  simp only [assignSequentialOffsets, if_neg hd]
  exact assignSeqGo_encode ws d h

theorem validate_entriesOfGo : ∀ (ws : List (Written × List Nat))
    (cur d total : Nat), d ≤ cur → cur + sumDs ws ≤ total →
    validateResolvedOffsets (entriesOfGo ws cur) d total = .ok () := by
  intro ws
  induction ws with
  | nil => intro cur d total _ _; rfl
  | cons wp rest ih =>
      intro cur d total h1 h2
      have hsum : cur + wp.1.dataSize + sumDs rest ≤ total := by
        simp [sumDs] at h2 ⊢
        omega
      unfold entriesOfGo validateResolvedOffsets
      rw [if_neg (by simp; omega), if_neg (by simp; omega)]
      exact ih (cur + wp.1.dataSize) d total (by omega) hsum

theorem checkedDataSize_ok {size cur ds : Nat}
    (h : checkedDataSize size cur = .ok ds) :
    ds = size ∧ size ≤ u32Max ∧ size ≤ u32Max - cur := by
  unfold checkedDataSize at h
  by_cases h1 : size > u32Max
  · rw [if_pos h1] at h; cases h
  · rw [if_neg h1] at h
    by_cases h2 : size > u32Max - cur
    · rw [if_pos h2] at h; cases h
    · rw [if_neg h2] at h
      cases h
      exact ⟨rfl, by omega, by omega⟩

theorem copyBounded_ok {data pl : List Nat} {limit : Nat}
    (h : copyBounded data limit = .ok pl) :
    pl = data ∧ data.length ≤ limit := by
  unfold copyBounded at h
  by_cases h1 : data.length > limit
  · rw [if_pos h1] at h; cases h
  · rw [if_neg h1] at h
    cases h
    exact ⟨rfl, by omega⟩

theorem timeToUint32_le (t : Int) : timeToUint32 t ≤ u32Max := by
  unfold timeToUint32
  by_cases h1 : t < 0
  · simp [h1]
  · rw [if_neg h1]
    by_cases h2 : t > (u32Max : Int)
    · simp [h2]
    · rw [if_neg h2]
      omega

theorem normalizeArchiveEntryPath_ok_ne_nil {p c : List Nat}
    (h : normalizeArchiveEntryPath p = .ok c) : c ≠ [] := by
  unfold normalizeArchiveEntryPath at h
  by_cases he : normPath p == ([] : List Nat)
  · rw [if_pos he] at h; cases h
  · rw [if_neg he] at h
    cases h
    intro hc
    apply he
    have : (replaceByte 47 92 (normPath p)).length = (normPath p).length := by
      simp [replaceByte]
    rw [hc] at this
    simp [List.length_eq_zero.mp this.symm]

/-! ## Shape of one written payload record -/

theorem writeUncompressedPayload_shape {inp : Input} {cur : Nat} {r : Written}
    {pl : List Nat} (h : writeUncompressedPayload inp cur = .ok (r, pl)) :
    pl = inp.data ∧
    r = { path := inp.path, dataSize := inp.data.length, originalSize := 0,
          mime := mimeNilC, timestamp := timeToUint32 inp.mtime,
          candidate := false } ∧
    inp.data.length ≤ u32Max - cur := by
  unfold writeUncompressedPayload at h
  cases hcb : copyBounded inp.data (u32Max - cur) with
  | error e =>
      simp [hcb, Except.bind, bind] at h
  | ok streamed =>
      obtain ⟨hst, hle⟩ := copyBounded_ok hcb
      subst hst
      simp only [hcb, Except.bind, bind] at h
      cases hds : checkedDataSize inp.data.length cur with
      | error e => simp [hds] at h
      | ok ds =>
          obtain ⟨hd, _, _⟩ := checkedDataSize_ok hds
          subst hd
          simp only [hds, pure, Except.pure, Except.ok.injEq, Prod.mk.injEq] at h
          exact ⟨h.2.symm, h.1.symm, hle⟩

theorem inMemory_shape {codec : Codec} {o : PackOptions} {inp : Input}
    {cur mx : Nat} {r : Written} {pl : List Nat}
    (h : writeCompressedCandidatePayloadInMemory codec o inp cur mx = .ok (r, pl)) :
    r.path = inp.path ∧ r.timestamp = timeToUint32 inp.mtime ∧
    r.dataSize = pl.length ∧ r.dataSize ≤ u32Max - cur ∧
    r.originalSize ≤ u32Max ∧
    ((r.mime = mimeNilC ∧ r.originalSize = 0 ∧ pl = inp.data) ∨
     (r.mime = mimeCompressC ∧ r.originalSize = inp.data.length ∧
       pl = codec.compress inp.data ∧ pl.length < inp.data.length)) := by
  unfold writeCompressedCandidatePayloadInMemory at h
  cases hcb : copyBounded inp.data mx with
  | error e => simp [hcb, Except.bind, bind] at h
  | ok raw =>
      obtain ⟨hst, _⟩ := copyBounded_ok hcb
      subst hst
      simp only [hcb, Except.bind, bind] at h
      cases hds : checkedDataSize inp.data.length cur with
      | error e => simp [hds] at h
      | ok origSz =>
          obtain ⟨hd, ho1, ho2⟩ := checkedDataSize_ok hds
          subst hd
          simp only [hds] at h
          by_cases hsc : !shouldCompressBySize o inp.data.length
          · rw [if_pos hsc] at h
            simp only [pure, Except.pure, Except.ok.injEq, Prod.mk.injEq] at h
            obtain ⟨hr, hpl⟩ := h
            subst hr
            subst hpl
            exact ⟨rfl, rfl, rfl, ho2, Nat.zero_le _, .inl ⟨rfl, rfl, rfl⟩⟩
          · rw [if_neg hsc] at h
            by_cases hcl : (codec.compress inp.data).length ≥ inp.data.length
            · rw [if_pos hcl] at h
              simp only [pure, Except.pure, Except.ok.injEq, Prod.mk.injEq] at h
              obtain ⟨hr, hpl⟩ := h
              subst hr
              subst hpl
              exact ⟨rfl, rfl, rfl, ho2, Nat.zero_le _, .inl ⟨rfl, rfl, rfl⟩⟩
            · rw [if_neg hcl] at h
              cases hds2 : checkedDataSize (codec.compress inp.data).length cur with
              | error e => simp [hds2] at h
              | ok ds2 =>
                  obtain ⟨hd2, hc1, hc2⟩ := checkedDataSize_ok hds2
                  subst hd2
                  simp only [hds2, pure, Except.pure, Except.ok.injEq,
                    Prod.mk.injEq] at h
                  obtain ⟨hr, hpl⟩ := h
                  subst hr
                  subst hpl
                  refine ⟨rfl, rfl, rfl, hc2, ho1, .inr ⟨rfl, rfl, rfl, by omega⟩⟩

theorem wrip_shape {codec : Codec} {o : PackOptions} {m : CompressMatcher}
    {inp : Input} {cur : Nat} {r : Written} {pl : List Nat}
    (h : writeRewriteInputPayload codec o m inp cur = .ok (r, pl)) :
    r.path = inp.path ∧ r.dataSize = pl.length ∧ r.dataSize ≤ u32Max - cur ∧
    r.originalSize ≤ u32Max ∧ r.timestamp ≤ u32Max ∧
    ((r.mime = mimeNilC ∧ r.originalSize = 0 ∧ pl = inp.data) ∨
     (r.mime = mimeCompressC ∧ r.originalSize = inp.data.length ∧
       pl = codec.compress inp.data ∧ pl.length < inp.data.length)) := by
  unfold writeRewriteInputPayload at h
  simp only [Except.bind, bind] at h
  cases hwi : writeInputPayload codec o inp
      (shouldUseCompressionForInput o m inp) cur with
  | error e => rw [hwi] at h; simp at h
  | ok rp =>
      obtain ⟨r0, pl0⟩ := rp
      rw [hwi] at h
      simp only [pure, Except.pure, Except.ok.injEq, Prod.mk.injEq] at h
      obtain ⟨hr, hpl⟩ := h
      subst hr
      subst hpl
      unfold writeInputPayload at hwi
      by_cases huc : !shouldUseCompressionForInput o m inp
      · rw [if_pos huc] at hwi
        obtain ⟨hpl0, hr0, hle⟩ := writeUncompressedPayload_shape hwi
        subst hpl0
        subst hr0
        exact ⟨rfl, rfl, hle, Nat.zero_le _, timeToUint32_le inp.mtime,
          .inl ⟨rfl, rfl, rfl⟩⟩
      · rw [if_neg huc] at hwi
        unfold writeCompressedCandidatePayload at hwi
        by_cases him : !shouldUseInMemoryCompressPath o inp.sizeHint (u32Max - cur)
        · rw [if_pos him] at hwi
          obtain ⟨hpl0, hr0, hle⟩ := writeUncompressedPayload_shape hwi
          subst hpl0
          subst hr0
          exact ⟨rfl, rfl, hle, Nat.zero_le _, timeToUint32_le inp.mtime,
            .inl ⟨rfl, rfl, rfl⟩⟩
        · rw [if_neg him] at hwi
          obtain ⟨h1, h2, h3, h4, h5, h6⟩ := inMemory_shape hwi
          refine ⟨h1, h3, h4, h5, ?_, h6⟩
          show r0.timestamp ≤ u32Max
          rw [h2]
          exact timeToUint32_le inp.mtime

/-! ## The payload loop, plan and parser composition lemmas -/

theorem rewriteLoop_paths (codec : Codec) (o : PackOptions) (m : CompressMatcher) :
    ∀ (plan : List Input) (cur : Nat) (ws : List (Written × List Nat)),
    rewriteLoop codec o m plan cur = .ok ws →
    ws.map (fun wp => wp.1.path) = plan.map (fun inp => inp.path) := by
  intro plan
  induction plan with
  | nil =>
      intro cur ws h
      simp only [rewriteLoop, Except.ok.injEq] at h
      subst h
      rfl
  | cons inp rest ih =>
      intro cur ws h
      unfold rewriteLoop at h
      simp only [Except.bind, bind] at h
      cases hwp : writeRewriteInputPayload codec o m inp cur with
      | error e => rw [hwp] at h; simp at h
      | ok wp =>
          rw [hwp] at h
          simp only [] at h
          cases htl : rewriteLoop codec o m rest (cur + wp.1.dataSize) with
          | error e => rw [htl] at h; simp at h
          | ok tail =>
              rw [htl] at h
              simp only [pure, Except.pure, Except.ok.injEq] at h
              subst h
              obtain ⟨hp, _⟩ := wrip_shape hwp
              simp [hp, ih _ _ htl]

theorem rewriteLoop_mem (codec : Codec) (o : PackOptions) (m : CompressMatcher) :
    ∀ (plan : List Input) (cur : Nat) (ws : List (Written × List Nat)),
    rewriteLoop codec o m plan cur = .ok ws →
    ∀ inp ∈ plan, ∃ wp ∈ ws, ∃ cy : Nat,
      writeRewriteInputPayload codec o m inp cy = .ok wp := by
  intro plan
  induction plan with
  | nil => intro cur ws h inp hm; cases hm
  | cons a rest ih =>
      intro cur ws h inp hm
      unfold rewriteLoop at h
      simp only [Except.bind, bind] at h
      cases hwp : writeRewriteInputPayload codec o m a cur with
      | error e => rw [hwp] at h; simp at h
      | ok wp =>
          rw [hwp] at h
          simp only [] at h
          cases htl : rewriteLoop codec o m rest (cur + wp.1.dataSize) with
          | error e => rw [htl] at h; simp at h
          | ok tail =>
              rw [htl] at h
              simp only [pure, Except.pure, Except.ok.injEq] at h
              subst h
              rcases List.mem_cons.mp hm with rfl | hmem
              · exact ⟨wp, List.mem_cons_self _ _, cur, hwp⟩
              · obtain ⟨wp2, hwm, cy, hok⟩ := ih _ _ htl inp hmem
                exact ⟨wp2, List.mem_cons_of_mem _ hwm, cy, hok⟩

theorem rewriteLoop_wprop (codec : Codec) (o : PackOptions) (m : CompressMatcher) :
    ∀ (plan : List Input) (cur : Nat) (ws : List (Written × List Nat)),
    rewriteLoop codec o m plan cur = .ok ws →
    ∀ wp ∈ ws, ∃ inp ∈ plan, ∃ cy : Nat,
      writeRewriteInputPayload codec o m inp cy = .ok wp := by
  intro plan
  induction plan with
  | nil =>
      intro cur ws h wp hm
      simp only [rewriteLoop, Except.ok.injEq] at h
      subst h
      cases hm
  | cons a rest ih =>
      intro cur ws h wp hm
      unfold rewriteLoop at h
      simp only [Except.bind, bind] at h
      cases hwp : writeRewriteInputPayload codec o m a cur with
      | error e => rw [hwp] at h; simp at h
      | ok wp0 =>
          rw [hwp] at h
          simp only [] at h
          cases htl : rewriteLoop codec o m rest (cur + wp0.1.dataSize) with
          | error e => rw [htl] at h; simp at h
          | ok tail =>
              rw [htl] at h
              simp only [pure, Except.pure, Except.ok.injEq] at h
              subst h
              rcases List.mem_cons.mp hm with rfl | hmem
              · exact ⟨a, List.mem_cons_self _ _, cur, hwp⟩
              · obtain ⟨inp2, him, cy, hok⟩ := ih _ _ htl wp hmem
                exact ⟨inp2, List.mem_cons_of_mem _ him, cy, hok⟩

theorem parseEntriesLoop_encode (tail : List Nat) :
    ∀ (ws : List (Written × List Nat)) (fuel off : Nat), ws.length < fuel →
    (∀ wp ∈ ws, wp.1.path ≠ [] ∧ wp.1.path.contains 0 = false ∧
      wp.1.path.length ≤ maxNameLenC ∧ wp.1.mime ≤ u32Max ∧
      wp.1.originalSize ≤ u32Max ∧ wp.1.timestamp ≤ u32Max ∧
      wp.1.dataSize ≤ u32Max) →
    parseEntriesLoop fuel
      ((ws.map fun wp => indexRecord wp.1).flatten ++
        0 :: (List.replicate 20 0 ++ tail)) off
      = .ok (ws.map fun wp => rawEntryOf wp.1,
          off + ((ws.map fun wp => indexRecord wp.1).flatten).length + 21) := by
  intro ws
  induction ws with
  | nil =>
      intro fuel off hfuel _
      obtain ⟨f, rfl⟩ : ∃ f, fuel = f + 1 := ⟨fuel - 1, by omega⟩
      simp only [List.map_nil, List.flatten_nil, List.nil_append, List.length_nil]
      rw [parseEntriesLoop_term]
  | cons wp ws ih =>
      intro fuel off hfuel hgood
      obtain ⟨f, rfl⟩ : ∃ f, fuel = f + 1 := ⟨fuel - 1, by omega⟩
      obtain ⟨hne, hnul, hlen512, hm, ho, ht, hd⟩ :=
        hgood wp (List.mem_cons_self _ _)
      have hgood' : ∀ q ∈ ws, q.1.path ≠ [] ∧ q.1.path.contains 0 = false ∧
          q.1.path.length ≤ maxNameLenC ∧ q.1.mime ≤ u32Max ∧
          q.1.originalSize ≤ u32Max ∧ q.1.timestamp ≤ u32Max ∧
          q.1.dataSize ≤ u32Max :=
        fun q hq => hgood q (List.mem_cons_of_mem _ hq)
      have hsplit : splitAtNul
          (((wp :: ws).map fun q => indexRecord q.1).flatten ++
            0 :: (List.replicate 20 0 ++ tail)) =
          some (wp.1.path,
            (u32le wp.1.mime ++ u32le wp.1.originalSize ++ u32le 0 ++
              u32le wp.1.timestamp ++ u32le wp.1.dataSize) ++
            ((ws.map fun q => indexRecord q.1).flatten ++
              0 :: (List.replicate 20 0 ++ tail))) := by
        have := splitAtNul_append wp.1.path
          ((u32le wp.1.mime ++ u32le wp.1.originalSize ++ u32le 0 ++
            u32le wp.1.timestamp ++ u32le wp.1.dataSize) ++
          ((ws.map fun q => indexRecord q.1).flatten ++
            0 :: (List.replicate 20 0 ++ tail))) hnul
        rw [← this]
        congr 1
        simp [indexRecord, List.append_assoc]
      have hloop := ih f (off + wp.1.path.length + 1 + 20) (by simpa using hfuel)
        hgood'
      have hmime : readU32 (wp.1.mime % 256) (wp.1.mime / 256 % 256)
          (wp.1.mime / 65536 % 256) (wp.1.mime / 16777216 % 256) = wp.1.mime :=
        readU32_u32le _ (by have : u32Max = 4294967295 := rfl; omega)
      have horig : readU32 (wp.1.originalSize % 256) (wp.1.originalSize / 256 % 256)
          (wp.1.originalSize / 65536 % 256) (wp.1.originalSize / 16777216 % 256)
          = wp.1.originalSize :=
        readU32_u32le _ (by have : u32Max = 4294967295 := rfl; omega)
      have hts : readU32 (wp.1.timestamp % 256) (wp.1.timestamp / 256 % 256)
          (wp.1.timestamp / 65536 % 256) (wp.1.timestamp / 16777216 % 256)
          = wp.1.timestamp :=
        readU32_u32le _ (by have : u32Max = 4294967295 := rfl; omega)
      have hds : readU32 (wp.1.dataSize % 256) (wp.1.dataSize / 256 % 256)
          (wp.1.dataSize / 65536 % 256) (wp.1.dataSize / 16777216 % 256)
          = wp.1.dataSize :=
        readU32_u32le _ (by have : u32Max = 4294967295 := rfl; omega)
      have hnamef : (wp.1.path == ([] : List Nat)) = false :=
        beq_eq_false_iff_ne.mpr hne
      have hlenf : ¬ wp.1.path.length > maxNameLenC := by omega
      have hzero : readU32 (0 % 256) (0 / 256 % 256) (0 / 65536 % 256)
          (0 / 16777216 % 256) = 0 := by norm_num [readU32]
      simp only [parseEntriesLoop, hsplit, u32le, List.cons_append, List.nil_append,
        List.append_assoc]
      simp only [hmime, horig, hts, hds, hzero]
      rw [if_neg (by simp [hnamef])]
      rw [if_neg hlenf]
      simp only [List.map_cons, List.flatten_cons, List.append_assoc] at hloop ⊢
      rw [hloop]
      simp only [Except.ok.injEq, Prod.mk.injEq, List.map_cons, rawEntryOf]
      constructor
      · trivial
      · simp only [indexRecord_length, List.length_append]
        omega

theorem entriesOfGo_slice (f : List Nat) :
    ∀ (ws : List (Written × List Nat)) (cur : Nat),
    (∀ wp ∈ ws, wp.1.dataSize = wp.2.length) →
    f.drop cur = (ws.map fun wp => wp.2).flatten →
    ∀ wp ∈ ws, ∃ e ∈ entriesOfGo ws cur,
      e.path = wp.1.path ∧ e.dataSize = wp.1.dataSize ∧
      e.originalSize = wp.1.originalSize ∧ e.mime = wp.1.mime ∧
      (f.drop e.offset).take e.dataSize = wp.2 := by
  intro ws
  induction ws with
  | nil => intro cur _ _ wp hm; cases hm
  | cons q rest ih =>
      intro cur hds hdrop wp hm
      rcases List.mem_cons.mp hm with rfl | hmem
      · refine ⟨⟨wp.1.path, cur, wp.1.dataSize, wp.1.originalSize,
          wp.1.timestamp, wp.1.mime⟩, List.mem_cons_self _ _, rfl, rfl, rfl, rfl, ?_⟩
        show (f.drop cur).take wp.1.dataSize = wp.2
        rw [hdrop, hds wp (List.mem_cons_self _ _)]
        simp only [List.map_cons, List.flatten_cons]
        exact List.take_left _ _
      · have hdrop2 : f.drop (cur + q.1.dataSize) = (rest.map fun r => r.2).flatten := by
          have : f.drop (cur + q.1.dataSize) = (f.drop cur).drop q.1.dataSize := by
            rw [List.drop_drop]
          rw [this, hdrop, hds q (List.mem_cons_self _ _)]
          simp only [List.map_cons, List.flatten_cons]
          exact List.drop_left _ _
        obtain ⟨e, hem, h1, h2, h3, h4, h5⟩ := ih (cur + q.1.dataSize)
          (fun r hr => hds r (List.mem_cons_of_mem _ hr)) hdrop2 wp hmem
        exact ⟨e, List.mem_cons_of_mem _ hem, h1, h2, h3, h4, h5⟩

/-! ## Plan lemmas: normalization, ordering, uniqueness -/

theorem normalizeInputs_mem : ∀ {inputs normd : List Input},
    normalizeInputs inputs = .ok normd →
    ∀ inp ∈ inputs, ∀ c, normalizeArchiveEntryPath inp.path = .ok c →
      { inp with path := c } ∈ normd := by
  intro inputs
  induction inputs with
  | nil => intro normd h inp hm; cases hm
  | cons a rest ih =>
      intro normd h inp hm c hc
      unfold normalizeInputs at h
      simp only [Except.bind, bind] at h
      cases hna : normalizeArchiveEntryPath a.path with
      | error e => rw [hna] at h; simp at h
      | ok ca =>
          rw [hna] at h
          simp only [] at h
          cases hrest : normalizeInputs rest with
          | error e => rw [hrest] at h; simp at h
          | ok tl =>
              rw [hrest] at h
              simp only [pure, Except.pure, Except.ok.injEq] at h
              subst h
              rcases List.mem_cons.mp hm with rfl | hmem
              · rw [hna] at hc
                cases hc
                exact List.mem_cons_self _ _
              · exact List.mem_cons_of_mem _ (ih hrest inp hmem c hc)

theorem normalizeInputs_src : ∀ {inputs normd : List Input},
    normalizeInputs inputs = .ok normd →
    ∀ j ∈ normd, ∃ a ∈ inputs,
      normalizeArchiveEntryPath a.path = .ok j.path ∧ j.data = a.data := by
  intro inputs
  induction inputs with
  | nil =>
      intro normd h j hm
      simp only [normalizeInputs, Except.ok.injEq] at h
      subst h
      cases hm
  | cons a rest ih =>
      intro normd h j hm
      unfold normalizeInputs at h
      simp only [Except.bind, bind] at h
      cases hna : normalizeArchiveEntryPath a.path with
      | error e => rw [hna] at h; simp at h
      | ok ca =>
          rw [hna] at h
          simp only [] at h
          cases hrest : normalizeInputs rest with
          | error e => rw [hrest] at h; simp at h
          | ok tl =>
              rw [hrest] at h
              simp only [pure, Except.pure, Except.ok.injEq] at h
              subst h
              rcases List.mem_cons.mp hm with rfl | hmem
              · exact ⟨a, List.mem_cons_self _ _, hna, rfl⟩
              · obtain ⟨b, hbm, hb1, hb2⟩ := ih hrest j hmem
                exact ⟨b, List.mem_cons_of_mem _ hbm, hb1, hb2⟩

theorem insertByPath_perm (inp : Input) :
    ∀ l : List Input, (insertByPath inp l).Perm (inp :: l) := by
  intro l
  induction l with
  | nil => exact List.Perm.refl _
  | cons x xs ih =>
      unfold insertByPath
      by_cases hb : bytesLt inp.path x.path
      · rw [if_pos hb]
      · rw [if_neg hb]
        exact (ih.cons x).trans (List.Perm.swap inp x xs)

theorem sortByPath_perm : ∀ l : List Input, (sortByPath l).Perm l := by
  intro l
  induction l with
  | nil => exact List.Perm.refl _
  | cons x xs ih =>
      unfold sortByPath
      exact (insertByPath_perm x (sortByPath xs)).trans (ih.cons x)

theorem validateUniqueGo_spec : ∀ (l : List Input) (seen : List (List Nat)),
    validateUniqueGo seen l = .ok () →
    (∀ b ∈ l, lowerBytes b.path ∉ seen) ∧
    l.Pairwise (fun a b => lowerBytes a.path ≠ lowerBytes b.path) := by
  intro l
  induction l with
  | nil => intro seen _; exact ⟨fun b hb => absurd hb (List.not_mem_nil b), .nil⟩
  | cons a rest ih =>
      intro seen h
      unfold validateUniqueGo at h
      by_cases hc : seen.contains (lowerBytes a.path)
      · rw [if_pos hc] at h; cases h
      · rw [if_neg hc] at h
        obtain ⟨hseen, hpair⟩ := ih (lowerBytes a.path :: seen) h
        have hnota : lowerBytes a.path ∉ seen := by
          intro hmem
          exact hc (List.elem_iff.mpr hmem)
        refine ⟨?_, ?_⟩
        · intro b hb
          rcases List.mem_cons.mp hb with rfl | hbm
          · exact hnota
          · intro hmem
            exact (hseen b hbm) (List.mem_cons_of_mem _ hmem)
        · refine List.Pairwise.cons ?_ hpair
          intro b hb heq
          exact (hseen b hb) (heq ▸ List.mem_cons_self _ _)

/-- A canonical name the parser can reproduce: NUL-free and within the
512-byte limit (trivially true for paths the canonicalizer rejects). -/
def goodEntryName (p : List Nat) : Bool :=
  match normalizeArchiveEntryPath p with
  | .ok c => !c.contains 0 && decide (c.length ≤ maxNameLenC)
  | .error _ => true

/-! ## Parsing the built file -/

/-- The trailer heuristic bit recorded by the parser. -/
def trailerFlag (file : List Nat) : Bool :=
  decide (file.length ≥ 21) && file.getD (file.length - 21) 1 == 0

theorem ws_len_le_iflat (ws : List (Written × List Nat)) :
    ws.length ≤ ((ws.map fun wp => indexRecord wp.1).flatten).length := by
  induction ws with
  | nil => simp
  | cons wp rest ih =>
      simp only [List.map_cons, List.flatten_cons, List.length_append,
        List.length_cons, indexRecord_length]
      omega

theorem buildFile_nil_length (ws : List (Written × List Nat)) :
    (buildFile [] ws).length =
      43 + ((ws.map fun wp => indexRecord wp.1).flatten).length +
        ((ws.map fun wp => wp.2).flatten).length := by
  simp [buildFile, fixedHeaderBytes]
  omega

theorem buildFile_drop_21 (ws : List (Written × List Nat)) :
    (buildFile [] ws).drop headerSizeC =
      0 :: ((ws.map fun wp => indexRecord wp.1).flatten ++
        0 :: (List.replicate 20 0 ++ (ws.map fun wp => wp.2).flatten)) := by
  have hsplit : buildFile [] ws = fixedHeaderBytes ++
      (0 :: ((ws.map fun wp => indexRecord wp.1).flatten ++
        0 :: (List.replicate 20 0 ++ (ws.map fun wp => wp.2).flatten))) := by
    simp [buildFile, List.append_assoc]
  rw [hsplit]
  exact List.drop_left' rfl

theorem buildFile_drop_data (ws : List (Written × List Nat)) :
    (buildFile [] ws).drop
        (43 + ((ws.map fun wp => indexRecord wp.1).flatten).length)
      = (ws.map fun wp => wp.2).flatten := by
  have hsplit : buildFile [] ws =
      (fixedHeaderBytes ++ 0 :: ((ws.map fun wp => indexRecord wp.1).flatten ++
        0 :: List.replicate 20 0)) ++ (ws.map fun wp => wp.2).flatten := by
    simp [buildFile, List.append_assoc]
  rw [hsplit]
  apply List.drop_left'
  simp [fixedHeaderBytes]
  omega

theorem buildFile_header_ok (ws : List (Written × List Nat)) :
    (readU32 ((buildFile [] ws).getD 1 0) ((buildFile [] ws).getD 2 0)
      ((buildFile [] ws).getD 3 0) ((buildFile [] ws).getD 4 0)
      == mimeHeaderC) = true := by
  have h1 : (buildFile [] ws).getD 1 0 = 115 := rfl
  have h2 : (buildFile [] ws).getD 2 0 = 114 := rfl
  have h3 : (buildFile [] ws).getD 3 0 = 101 := rfl
  have h4 : (buildFile [] ws).getD 4 0 = 86 := rfl
  rw [h1, h2, h3, h4]
  rfl

theorem parsePBO_buildFile (ws : List (Written × List Nat))
    (hgood : ∀ wp ∈ ws, wp.1.path ≠ [] ∧ wp.1.path.contains 0 = false ∧
      wp.1.path.length ≤ maxNameLenC ∧ wp.1.mime ≤ u32Max ∧
      wp.1.originalSize ≤ u32Max ∧ wp.1.timestamp ≤ u32Max ∧
      wp.1.dataSize ≤ u32Max)
    (hpay : ((ws.map fun wp => wp.2).flatten).length = sumDs ws)
    (hsum : 43 + ((ws.map fun wp => indexRecord wp.1).flatten).length + sumDs ws
      ≤ u32Max) :
    parsePBO (buildFile [] ws) {} = .ok
      ⟨[], entriesOfGo ws
          (43 + ((ws.map fun wp => indexRecord wp.1).flatten).length),
        43 + ((ws.map fun wp => indexRecord wp.1).flatten).length,
        (buildFile [] ws).length, trailerFlag (buildFile [] ws)⟩ := by
  have hflen := buildFile_nil_length ws
  have hnotlt : ¬ (buildFile [] ws).length < headerSizeC := by
    rw [hflen]
    show ¬ _ < 21
    omega
  have hmagic : ¬ (!(readU32 ((buildFile [] ws).getD 1 0)
      ((buildFile [] ws).getD 2 0) ((buildFile [] ws).getD 3 0)
      ((buildFile [] ws).getD 4 0) == mimeHeaderC)) = true := by
    rw [buildFile_header_ok]
    simp
  obtain ⟨k, hk⟩ : ∃ k, (buildFile [] ws).length = k + 1 :=
    ⟨(buildFile [] ws).length - 1, by omega⟩
  have hfuel : ws.length < k + 1 := by
    have h1 := ws_len_le_iflat ws
    omega
  have hkv : parseHeaderKVs (buildFile [] ws).length
      ((buildFile [] ws).drop headerSizeC) headerSizeC =
      .ok ([], ((ws.map fun wp => indexRecord wp.1).flatten ++
        0 :: (List.replicate 20 0 ++ (ws.map fun wp => wp.2).flatten)),
        headerSizeC + 1) := by
    rw [buildFile_drop_21, hk]
    exact parseHeaderKVs_nil k headerSizeC _
  have hent := parseEntriesLoop_encode
    ((ws.map fun wp => wp.2).flatten) ws (k + 1) (headerSizeC + 1) hfuel
    (fun wp hm => hgood wp hm)
  rw [← hk] at hent
  have hdarith : headerSizeC + 1 +
      ((ws.map fun wp => indexRecord wp.1).flatten).length + 21 =
      43 + ((ws.map fun wp => indexRecord wp.1).flatten).length := by
    show 21 + 1 + _ + 21 = _
    omega
  rw [hdarith] at hent
  have hresolved : resolveEntryOffsets (ws.map fun wp => rawEntryOf wp.1)
      (43 + ((ws.map fun wp => indexRecord wp.1).flatten).length)
      (buildFile [] ws).length .sequential =
      .ok (entriesOfGo ws
        (43 + ((ws.map fun wp => indexRecord wp.1).flatten).length)) := by
    unfold resolveEntryOffsets resolveByMode
    rw [assignSequentialOffsets_encode ws
      (43 + ((ws.map fun wp => indexRecord wp.1).flatten).length) (by omega)]
    simp only [Except.bind, bind]
    rw [validate_entriesOfGo ws
      (43 + ((ws.map fun wp => indexRecord wp.1).flatten).length)
      (43 + ((ws.map fun wp => indexRecord wp.1).flatten).length)
      (buildFile [] ws).length (Nat.le_refl _)
      (by rw [hflen, hpay])]
    rfl
  unfold parsePBO
  rw [if_neg hnotlt, if_neg hmagic]
  simp only [hkv, Except.bind, bind, hent, hresolved]
  rfl

theorem pflat_len_eq_sumDs (ws : List (Written × List Nat))
    (hds : ∀ wp ∈ ws, wp.1.dataSize = wp.2.length) :
    ((ws.map fun wp => wp.2).flatten).length = sumDs ws := by
  rw [List.length_flatten, List.map_map, sumDs]
  exact congrArg List.sum
    (List.map_congr_left fun wp hm => ((hds wp hm).symm))

theorem plan_paths_nodup {plan : List Input}
    (hp : plan.Pairwise fun a b => lowerBytes a.path ≠ lowerBytes b.path) :
    (plan.map fun inp => inp.path).Nodup := by
  unfold List.Nodup
  rw [List.pairwise_map]
  exact hp.imp fun h heq => h (by rw [heq])

theorem goodEntryName_ok {p c : List Nat} (hg : goodEntryName p = true)
    (hc : normalizeArchiveEntryPath p = .ok c) :
    c.contains 0 = false ∧ c.length ≤ maxNameLenC := by
  unfold goodEntryName at hg
  rw [hc] at hg
  simp only [Bool.and_eq_true, Bool.not_eq_true', decide_eq_true_eq] at hg
  exact hg

theorem mime_vals_le {m : Nat} (h : m = mimeNilC ∨ m = mimeCompressC) :
    m ≤ u32Max := by
  rcases h with rfl | rfl
  · exact Nat.zero_le _
  · norm_num [mimeCompressC, u32Max]

theorem findEntryByName_unique {E : List EntryInfo} {c : List Nat}
    {e0 : EntryInfo} (he0m : e0 ∈ E) (he0p : e0.path = c)
    (hnodup : (E.map fun e => e.path).Nodup)
    (hcanon : ∀ e ∈ E, normPath e.path = normPath c → e.path = c) :
    findEntryByName E c = some e0 := by
  unfold findEntryByName
  cases hfind : E.find? (fun e => normPath e.path == normPath c) with
  | none =>
      have hsome : (E.find? (fun e => normPath e.path == normPath c)).isSome
          = true :=
        List.find?_isSome.mpr ⟨e0, he0m, by
          show (normPath e0.path == normPath c) = true
          rw [he0p]
          exact beq_self_eq_true _⟩
      rw [hfind] at hsome
      simp at hsome
  | some e =>
      have hpe := List.find?_some hfind
      have hnp : normPath e.path = normPath c := beq_iff_eq.mp hpe
      have hem := List.mem_of_find?_eq_some hfind
      have hep := hcanon e hem hnp
      have hee : e = e0 :=
        List.inj_on_of_nodup_map hnodup hem he0m
          (by show e.path = e0.path; rw [hep, he0p])
      rw [hee]

theorem readEntry_of_found {codec : Codec} {file : List Nat} {p : ParsedPBO}
    {c : List Nat} {e0 : EntryInfo}
    (hf : findEntryByName p.entries c = some e0) :
    readEntry codec file p c =
      (if e0.isCompressedB then
        match codec.decompress ((file.drop e0.offset).take e0.dataSize)
            e0.originalSize with
        | none => .error .decompressFailed
        | some out => .ok out
      else .ok ((file.drop e0.offset).take e0.dataSize)) := by
  unfold readEntry
  rw [hf]

/-- C1 (amended) — the Pack / Open / ReadEntry round trip.  Beyond the
claim's case-insensitive uniqueness (implied by Pack succeeding), the
canonical paths must also be injective under `NormalizePath` (the
counterexample shows distinct canonical paths may collide there), NUL
free and at most 512 bytes (the writer does not reject such names but
the parser does), the archive must stay under 4 GiB, the options must
carry no header pairs, and the codec must invert its own compression on
the packed inputs.  Then parsing the packed bytes succeeds and ReadEntry
on each canonical path returns exactly the original bytes, for raw and
for LZSS-compressed entries alike. -/
theorem pack_roundtrip (codec : Codec) (inputs : List Input)
    (opts : PackOptions) (file : List Nat)
    (hh : opts.hdrs = [])
    (hpack : packFileBytes codec inputs opts = .ok file)
    (hlen : file.length ≤ u32Max)
    (hgoodNames : ∀ a ∈ inputs, goodEntryName a.path = true)
    (hinj : ∀ a ∈ inputs, ∀ b ∈ inputs,
      Except.map normPath (normalizeArchiveEntryPath a.path)
        = Except.map normPath (normalizeArchiveEntryPath b.path) →
      normalizeArchiveEntryPath a.path = normalizeArchiveEntryPath b.path)
    (hcodec : ∀ a ∈ inputs,
      codec.decompress (codec.compress a.data) a.data.length = some a.data) :
    ∀ inp ∈ inputs, ∀ c, normalizeArchiveEntryPath inp.path = .ok c →
      ∃ p, parsePBO file {} = .ok p ∧
        readEntry codec file p c = .ok inp.data := by
  intro inp hin c hc
  have hnemp : inputs.isEmpty = false := by
    cases inputs with
    | nil => cases hin
    | cons a l => rfl
  unfold packFileBytes at hpack
  simp only [hnemp, Bool.false_eq_true, if_false, Except.bind, bind] at hpack
  cases hplan : preparePackRewritePlan inputs with
  | error e => rw [hplan] at hpack; simp at hpack
  | ok plan =>
  rw [hplan] at hpack
  simp only [] at hpack
  -- destructure the plan preparation
  unfold preparePackRewritePlan at hplan
  simp only [Except.bind, bind] at hplan
  cases hnorm : normalizeInputs inputs with
  | error e => rw [hnorm] at hplan; simp at hplan
  | ok normd =>
  rw [hnorm] at hplan
  simp only [] at hplan
  cases hval : validateUniqueGo [] (sortByPath normd) with
  | error e => rw [hval] at hplan; simp at hplan
  | ok u =>
  cases u
  rw [hval] at hplan
  simp only [] at hplan
  by_cases htot : ((sortByPath normd).map fun i =>
      if i.sizeHint > 0 then i.sizeHint else 0).sum > (maxPBOData : Int)
  · rw [if_pos htot] at hplan; cases hplan
  · rw [if_neg htot] at hplan
    simp only [pure, Except.pure, Except.ok.injEq] at hplan
    subst hplan
    -- destructure the rewrite core
    unfold rewriteArchiveBytes at hpack
    by_cases hover : headerSizeC +
        ((((opts.applyDefaults).applyDefaults).hdrs.map headerPairBytes).flatten).length
        + 1 + indexSizeOf (sortByPath normd) > maxPBOData
    · rw [if_pos hover] at hpack; cases hpack
    · rw [if_neg hover] at hpack
      simp only [Except.bind, bind] at hpack
      cases hws : rewriteLoop codec (opts.applyDefaults).applyDefaults
          ((opts.applyDefaults).applyDefaults).compress (sortByPath normd)
          ((headerSizeC +
            ((((opts.applyDefaults).applyDefaults).hdrs.map headerPairBytes).flatten).length
            + 1 + indexSizeOf (sortByPath normd)) % (u32Max + 1)) with
      | error e => rw [hws] at hpack; simp at hpack
      | ok ws =>
      rw [hws] at hpack
      simp only [pure, Except.pure, Except.ok.injEq] at hpack
      have hodh : ((opts.applyDefaults).applyDefaults).hdrs = [] := hh
      rw [hodh] at hpack
      subst hpack
      -- per-record facts
      have hwsrc := rewriteLoop_wprop codec _ _ _ _ _ hws
      have hds_pl : ∀ wp ∈ ws, wp.1.dataSize = wp.2.length := by
        intro wp hm
        obtain ⟨i, _, cy, hok⟩ := hwsrc wp hm
        exact (wrip_shape hok).2.1
      have hplansrc : ∀ i ∈ sortByPath normd, ∃ a ∈ inputs,
          normalizeArchiveEntryPath a.path = .ok i.path ∧ i.data = a.data := by
        intro i hi
        exact normalizeInputs_src hnorm i
          ((sortByPath_perm normd).mem_iff.mp hi)
      have hgoodws : ∀ wp ∈ ws, wp.1.path ≠ [] ∧ wp.1.path.contains 0 = false ∧
          wp.1.path.length ≤ maxNameLenC ∧ wp.1.mime ≤ u32Max ∧
          wp.1.originalSize ≤ u32Max ∧ wp.1.timestamp ≤ u32Max ∧
          wp.1.dataSize ≤ u32Max := by
        intro wp hm
        obtain ⟨i, hi, cy, hok⟩ := hwsrc wp hm
        obtain ⟨hpath, hdseq, hdle, hole, htle, hshape⟩ := wrip_shape hok
        obtain ⟨a, ha, hap, _⟩ := hplansrc i hi
        have hgn := goodEntryName_ok (hgoodNames a ha) hap
        have hne : wp.1.path ≠ [] := by
          rw [hpath]
          exact normalizeArchiveEntryPath_ok_ne_nil hap
        have hmime : wp.1.mime ≤ u32Max := by
          apply mime_vals_le
          rcases hshape with ⟨h1, _, _⟩ | ⟨h1, _, _, _⟩
          · exact .inl h1
          · exact .inr h1
        refine ⟨hne, ?_, ?_, hmime, hole, htle, by omega⟩
        · rw [hpath]; exact hgn.1
        · rw [hpath]; exact hgn.2
      have hpay := pflat_len_eq_sumDs ws hds_pl
      have hflen := buildFile_nil_length ws
      have hsum : 43 + ((ws.map fun wp => indexRecord wp.1).flatten).length
          + sumDs ws ≤ u32Max := by
        rw [hflen, hpay] at hlen
        omega
      have hparse := parsePBO_buildFile ws hgoodws hpay hsum
      refine ⟨_, hparse, ?_⟩
      -- locate the written record of this input
      have hinpN : ({ inp with path := c } : Input) ∈ sortByPath normd :=
        (sortByPath_perm normd).mem_iff.mpr
          (normalizeInputs_mem hnorm inp hin c hc)
      obtain ⟨wp, hwm, cy, hok⟩ :=
        rewriteLoop_mem codec _ _ _ _ _ hws _ hinpN
      obtain ⟨hpath, hdseq, hdle, hole, htle, hshape⟩ := wrip_shape hok
      have hpc : wp.1.path = c := hpath
      -- the entry carrying this record, with its payload slice
      have hdrop := buildFile_drop_data ws
      obtain ⟨e0, he0m, he0p, he0d, he0o, he0mime, he0slice⟩ :=
        entriesOfGo_slice (buildFile [] ws) ws
          (43 + ((ws.map fun wp => indexRecord wp.1).flatten).length)
          hds_pl hdrop wp hwm
      -- the lookup finds exactly this entry
      have hpaths1 := entriesOfGo_map_path ws
        (43 + ((ws.map fun wp => indexRecord wp.1).flatten).length)
      have hpaths2 := rewriteLoop_paths codec _ _ _ _ _ hws
      have hnodup : ((entriesOfGo ws
          (43 + ((ws.map fun wp => indexRecord wp.1).flatten).length)).map
            (fun e => e.path)).Nodup := by
        rw [hpaths1, hpaths2]
        exact plan_paths_nodup (validateUniqueGo_spec _ _ hval).2
      have hcanon : ∀ e ∈ entriesOfGo ws
          (43 + ((ws.map fun wp => indexRecord wp.1).flatten).length),
          normPath e.path = normPath c → e.path = c := by
        intro e hem hnp
        have hmem2 : e.path ∈ (sortByPath normd).map fun i => i.path := by
          rw [← hpaths2, ← hpaths1]
          exact List.mem_map_of_mem _ hem
        obtain ⟨j, hj, hjp⟩ := List.mem_map.mp hmem2
        obtain ⟨a, haIn, hap, _⟩ := hplansrc j hj
        have hmapeq : Except.map normPath (normalizeArchiveEntryPath a.path)
            = Except.map normPath (normalizeArchiveEntryPath inp.path) := by
          rw [hap, hc]
          simp only [Except.map]
          rw [hjp, hnp]
        have heq2 := hinj a haIn inp hin hmapeq
        rw [hap, hc] at heq2
        cases heq2
        rw [← hjp]
      have hfound := findEntryByName_unique he0m (he0p.trans hpc) hnodup hcanon
      rw [readEntry_of_found hfound]
      rcases hshape with ⟨hm0, ho0, hpl⟩ | ⟨hm0, ho0, hpl, _⟩
      · -- raw entry
        have hpl' : wp.2 = inp.data := hpl
        have hcomp : e0.isCompressedB = false := by
          unfold EntryInfo.isCompressedB
          rw [he0mime, hm0, he0o, ho0]
          rfl
        rw [hcomp]
        simp only [Bool.false_eq_true, if_false]
        rw [he0slice, hpl']
      · -- compressed entry
        have hpl' : wp.2 = codec.compress inp.data := hpl
        have ho0' : wp.1.originalSize = inp.data.length := ho0
        have hcomp : e0.isCompressedB = true := by
          unfold EntryInfo.isCompressedB
          rw [he0mime, hm0]
          rfl
        rw [hcomp]
        simp only [if_true]
        rw [he0slice, hpl', he0o, ho0']
        rw [hcodec inp hin]

/-- A codec that compresses the witness payload `[5, 5, 5, 5]` to one
byte and inverts it. -/
def c1wCodec : Codec :=
  { compress := fun l => if l == [5, 5, 5, 5] then [9] else l,
    decompress := fun l n =>
      if l == [9] && n == 4 then some [5, 5, 5, 5] else some l }

def c1wOpts : PackOptions :=
  { compress := some (fun p => p == [98]), minCompressSize := 1,
    maxCompressSize := 100 }

/-- One raw input (`"a"`) and one compressible input (`"b"`). -/
def c1wInputs : List Input :=
  [{ path := [97], data := [1, 2] },
   { path := [98], data := [5, 5, 5, 5], sizeHint := 4 }]

def c1wFile : List Nat :=
  (packFileBytes c1wCodec c1wInputs c1wOpts).toOption.getD []

/-- Witness for `pack_roundtrip`: packing the two inputs and reading the
compressed entry back through parse and LZSS decompression returns its
original bytes. -/
theorem pack_roundtrip_witness :
    ∃ p, parsePBO c1wFile {} = .ok p ∧
      readEntry c1wCodec c1wFile p [98] = .ok [5, 5, 5, 5] :=
  pack_roundtrip c1wCodec c1wInputs c1wOpts c1wFile rfl (by decide) (by decide)
    (by decide) (by decide) (by decide)
    { path := [98], data := [5, 5, 5, 5], sizeHint := 4 } (by decide)
    [98] (by decide)

end PBO
